import Mathlib

/-!
Verification development for the Drawing Comparator core: the comparison
orchestration (`compare_with_method` of drawing_comparator_broken.py), the
three-tier semantic cascade (`compare_with_gpt` and
`_fallback_simple_comparison` of semantic_comparator.py), the multi-model
consensus engine (`get_consensus_result`), and the lexical similarity ratio
used throughout, which is Python's `difflib.SequenceMatcher(None, a, b).ratio()`
with `isjunk=None` and `autojunk=True`.

Modelling conventions:
* texts are lists of characters (Python strings);
* Python floats are modelled as rationals — all claims under study compare
  exact values produced by exact arithmetic, where binary floating point and
  rational arithmetic agree on equality/inequality of the compared quantities;
* the outcomes of the external model calls (`client.chat.completions.create`
  plus `json.loads`) are passed to the functions as explicit outcome values,
  the usual shallow embedding of effects;
* JSON replies are modelled at the schema level (fields present or absent,
  numeric where the schema asks for numbers); `dict.get(key, default)` becomes
  `Option.getD`.
-/

namespace DrawingComparator

/-! ## Lexical similarity: difflib.SequenceMatcher

`posns b c` is the ascending list of positions of `c` in `b` — the entry the
`b2j` dict of `SequenceMatcher.__chain_b` holds for key `c` before junk
purging.  With `isjunk=None` the junk set `bjunk` is empty; `autojunk`
removes "popular" elements (appearing more than `n // 100 + 1` times when
`n >= 200`) from `b2j` only. -/

def posns (b : List Char) (c : Char) : List Nat :=
  (List.range b.length).filter (fun j => b.getD j ' ' == c)

/-- `autojunk` popularity test of `__chain_b`: `n >= 200` and
`len(indices) > n // 100 + 1`. -/
def isPopular (b : List Char) (c : Char) : Bool :=
  decide (200 ≤ b.length) && decide (b.length / 100 + 1 < (posns b c).length)

/-- The `b2j` mapping after autojunk purging, as a function from an element
to its (possibly purged) index list. -/
def b2j (b : List Char) (c : Char) : List Nat :=
  if isPopular b c then [] else posns b c

/-- `bjunk.__contains__`: always false, because the sources construct
`SequenceMatcher(None, text1, text2)` with `isjunk=None`. -/
def isbjunk (_ : Char) : Bool := false

/-- A `(besti, bestj, bestsize)` triple of `find_longest_match`
(`difflib.Match`). -/
structure FLM where
  besti : Nat
  bestj : Nat
  bestsize : Nat
deriving DecidableEq, Repr

/-- The inner `for j in b2j.get(a[i], nothing)` loop of `find_longest_match`:
`j < blo` is `continue`, `j >= bhi` is `break`, and otherwise
`k = newj2len[j] = j2len.get(j-1, 0) + 1` updates the best triple when
`k > bestsize`.  `fOld` is the previous row's `j2len` (default 0 on missing
keys, and `j2len.get(-1, 0) = 0` is the `j = 0` case); `fNew` is `newj2len`.
`besti = i-k+1` is written `i+1-k`, the same value since `k ≤ i+1` whenever
an update fires (`k` counts a match ending at row `i`). -/
def innerLoop (blo bhi i : Nat) (fOld : Nat → Nat) :
    List Nat → (Nat → Nat) → FLM → ((Nat → Nat) × FLM)
  | [], fNew, best => (fNew, best)
  | j :: js, fNew, best =>
    if j < blo then innerLoop blo bhi i fOld js fNew best
    else if bhi ≤ j then (fNew, best)
    else
      let k := (if j = 0 then 0 else fOld (j - 1)) + 1
      let fNew' := fun j' => if j' = j then k else fNew j'
      let best' : FLM := if best.bestsize < k then ⟨i + 1 - k, j + 1 - k, k⟩ else best
      innerLoop blo bhi i fOld js fNew' best'

/-- The outer `for i in range(alo, ahi)` loop of `find_longest_match`;
`fuel` is the number of remaining rows `ahi - i`.  Each row starts a fresh
`newj2len` (the constant-0 function) and afterwards `j2len = newj2len`. -/
def rowsLoop (a b : List Char) (blo bhi : Nat) : Nat → Nat → (Nat → Nat) → FLM → FLM
  | _, 0, _, best => best
  | i, fuel + 1, f, best =>
    let s := innerLoop blo bhi i f (b2j b (a.getD i ' ')) (fun _ => 0) best
    rowsLoop a b blo bhi (i + 1) fuel s.1 s.2

/-- The backward extension `while` loops of `find_longest_match`
(`while besti > alo and bestj > blo and p(b[bestj-1]) and
a[besti-1] == b[bestj-1]`), parameterized by the junk predicate `p`
(`not isbjunk` for the first loop, `isbjunk` for the third).  The loop
decrements `besti`, so recursion is on `besti`. -/
def extendBack (a b : List Char) (alo blo : Nat) (p : Char → Bool) :
    Nat → Nat → Nat → FLM
  | 0, bj, bs => ⟨0, bj, bs⟩
  | bi + 1, bj, bs =>
    if alo < bi + 1 ∧ blo < bj ∧ p (b.getD (bj - 1) ' ') = true ∧
        a.getD (bi + 1 - 1) ' ' = b.getD (bj - 1) ' ' then
      extendBack a b alo blo p bi (bj - 1) (bs + 1)
    else ⟨bi + 1, bj, bs⟩

/-- Body of the forward extension `while` loops
(`while besti+bestsize < ahi and bestj+bestsize < bhi and p(b[bestj+bestsize])
and a[besti+bestsize] == b[bestj+bestsize]: bestsize += 1`).  The counter is
exactly the maximal number of remaining iterations `ahi - (besti+bestsize)`:
when it is 0 the loop condition `besti+bestsize < ahi` is false anyway. -/
def extendFwdGo (a b : List Char) (ahi bhi : Nat) (p : Char → Bool) (bi bj : Nat) :
    Nat → Nat → Nat
  | 0, bs => bs
  | fuel + 1, bs =>
    if bi + bs < ahi ∧ bj + bs < bhi ∧ p (b.getD (bj + bs) ' ') = true ∧
        a.getD (bi + bs) ' ' = b.getD (bj + bs) ' ' then
      extendFwdGo a b ahi bhi p bi bj fuel (bs + 1)
    else bs

/-- The forward extension loop, returning the new `bestsize`. -/
def extendFwd (a b : List Char) (ahi bhi : Nat) (p : Char → Bool) (bi bj bs : Nat) : Nat :=
  extendFwdGo a b ahi bhi p bi bj (ahi - (bi + bs)) bs

/-- `SequenceMatcher.find_longest_match(alo, ahi, blo, bhi)`: the main
`j2len` dynamic-programming loop starting from `(alo, blo, 0)`, then the two
non-junk extension loops, then the two junk extension loops. -/
def find_longest_match (a b : List Char) (alo ahi blo bhi : Nat) : FLM :=
  let best1 := rowsLoop a b blo bhi alo (ahi - alo) (fun _ => 0) ⟨alo, blo, 0⟩
  let e1 := extendBack a b alo blo (fun c => !isbjunk c) best1.besti best1.bestj best1.bestsize
  let s1 := extendFwd a b ahi bhi (fun c => !isbjunk c) e1.besti e1.bestj e1.bestsize
  let e2 := extendBack a b alo blo (fun c => isbjunk c) e1.besti e1.bestj s1
  let s2 := extendFwd a b ahi bhi (fun c => isbjunk c) e2.besti e2.bestj e2.bestsize
  ⟨e2.besti, e2.bestj, s2⟩

/-- Measure of one `(alo, ahi, blo, bhi)` window on the queue of
`get_matching_blocks`. -/
def winMeasure : Nat × Nat × Nat × Nat → Nat
  | (alo, ahi, blo, bhi) => (ahi - alo) + (bhi - blo) + 1

/-- Measure of the whole queue; it strictly decreases at every iteration of
the `while queue` loop (`matchingBlocksGo_measure_lt` below), so it bounds
the number of iterations. -/
def queueMeasure (q : List (Nat × Nat × Nat × Nat)) : Nat := (q.map winMeasure).sum

/-- The `while queue` loop of `get_matching_blocks`.  The Python queue is a
stack (`append`/`pop()` at the right end), modelled head-of-list-as-top: the
left window is appended first and the right window second, so the right
window is on top.  `fuel` counts loop iterations; `get_matching_blocks`
supplies `queueMeasure` of the initial queue, which suffices because the
measure strictly decreases each iteration (see `matchingBlocksGo_fuel`). -/
def matchingBlocksGo (a b : List Char) :
    Nat → List (Nat × Nat × Nat × Nat) → List FLM → List FLM
  | _, [], acc => acc
  | 0, _ :: _, acc => acc
  | fuel + 1, (alo, ahi, blo, bhi) :: rest, acc =>
    let m := find_longest_match a b alo ahi blo bhi
    if m.bestsize = 0 then matchingBlocksGo a b fuel rest acc
    else
      matchingBlocksGo a b fuel
        ((if m.besti + m.bestsize < ahi ∧ m.bestj + m.bestsize < bhi then
            [(m.besti + m.bestsize, ahi, m.bestj + m.bestsize, bhi)] else []) ++
         (if alo < m.besti ∧ blo < m.bestj then [(alo, m.besti, blo, m.bestj)] else []) ++
         rest)
        (m :: acc)

/-- Lexicographic comparison of match triples: the `matching_blocks.sort()`
order on `(i, j, k)` tuples. -/
def lexLe (x y : FLM) : Bool :=
  decide (x.besti < y.besti ∨ (x.besti = y.besti ∧
    (x.bestj < y.bestj ∨ (x.bestj = y.bestj ∧ x.bestsize ≤ y.bestsize))))

/-- Insertion of one triple into a `lexLe`-sorted list. -/
def insertSorted (x : FLM) : List FLM → List FLM
  | [] => [x]
  | y :: ys => if lexLe x y then x :: y :: ys else y :: insertSorted x ys

/-- `matching_blocks.sort()`: sorting in the lexicographic tuple order.
(Any correct sort computes the same list here: triples that compare equal
under the total order `lexLe` are identical, so stability cannot matter.) -/
def sortBlocks : List FLM → List FLM
  | [] => []
  | x :: xs => insertSorted x (sortBlocks xs)

/-- The adjacent-block collapsing loop of `get_matching_blocks`
(`i1 = j1 = k1 = 0; for i2, j2, k2 in matching_blocks: ...`). -/
def collapseGo : Nat → Nat → Nat → List FLM → List FLM
  | i1, j1, k1, [] => if k1 ≠ 0 then [⟨i1, j1, k1⟩] else []
  | i1, j1, k1, ⟨i2, j2, k2⟩ :: rest =>
    if i1 + k1 = i2 ∧ j1 + k1 = j2 then collapseGo i1 j1 (k1 + k2) rest
    else (if k1 ≠ 0 then [⟨i1, j1, k1⟩] else []) ++ collapseGo i2 j2 k2 rest

/-- `SequenceMatcher.get_matching_blocks()`: the queue loop from the full
window, then sorting, collapsing adjacent blocks, and the `(la, lb, 0)`
sentinel. -/
def get_matching_blocks (a b : List Char) : List FLM :=
  let w0 : Nat × Nat × Nat × Nat := (0, a.length, 0, b.length)
  let blocks := matchingBlocksGo a b (queueMeasure [w0]) [w0] []
  let non_adjacent := collapseGo 0 0 0 (sortBlocks blocks)
  non_adjacent ++ [⟨a.length, b.length, 0⟩]

/-- `matches = sum(triple[-1] for triple in self.get_matching_blocks())`. -/
def matchesTotal (a b : List Char) : Nat :=
  ((get_matching_blocks a b).map FLM.bestsize).sum

/-- `SequenceMatcher.ratio()` = `_calculate_ratio(matches, len(a) + len(b))`:
`2.0 * matches / length` when `length` is nonzero, else `1.0`. -/
def ratio (a b : List Char) : ℚ :=
  if a.length + b.length ≠ 0 then
    2 * (matchesTotal a b : ℚ) / ((a.length : ℚ) + (b.length : ℚ))
  else 1

/-! ### Proof infrastructure for the self-comparison invariant

`popRow a i` says position `i` of `a` holds an autojunk-popular element
(for the self-comparison `b = a`).  `Drun a j` is the length of the maximal
popular-free run of `a` ending at position `j`; `Dm a i` is `Drun` at the
previous row (0 at row 0).  `RowInv` is the invariant of the `j2len` row
loop of `find_longest_match a a 0 n 0 n` when entering row `i`. -/

def popRow (a : List Char) (i : Nat) : Bool := isPopular a (a.getD i ' ')

def Drun (a : List Char) : Nat → Nat
  | 0 => if popRow a 0 then 0 else 1
  | j + 1 => if popRow a (j + 1) then 0 else Drun a j + 1

def Dm (a : List Char) : Nat → Nat
  | 0 => 0
  | i + 1 => Drun a i

def RowInv (a : List Char) (i : Nat) (f : Nat → Nat) (B : FLM) : Prop :=
  B.besti = B.bestj ∧ B.besti + B.bestsize ≤ i ∧
  (∀ j, f j ≤ Dm a i) ∧ (∀ j, f j ≤ Drun a j) ∧
  (∀ t, t + 1 = i → f t = Drun a t) ∧
  (∀ j, j < i → Drun a j ≤ B.bestsize)

/-! ## Semantic comparison (semantic_comparator.py)

`SemanticComparisonResult` is the dataclass of the source.  The `timestamp`
(`datetime.now().isoformat()`) is passed in as the parameter `now`.
Values of `technical_analysis` entries are either strings or lists of
strings (`TAVal`). -/

inductive TAVal where
  | str (s : String)
  | strs (l : List String)
deriving DecidableEq

structure SemanticComparisonResult where
  similarity_score : ℚ
  confidence : ℚ
  semantic_differences : List String
  technical_analysis : List (String × TAVal)
  reasoning : String
  categories : List (String × ℚ)
  timestamp : String
  raw_similarity : ℚ
deriving DecidableEq

/-- A well-typed-per-schema decoded JSON object for the detailed prompt:
each recognized key is present (`some`) or absent (`none`).
`result_data.get(key, default)` is `Option.getD`. -/
structure DetailedReply where
  similarity_score : Option ℚ
  confidence : Option ℚ
  semantic_differences : Option (List String)
  technical_analysis : Option (List (String × TAVal))
  reasoning : Option String
  categories : Option (List (String × ℚ))
deriving DecidableEq

/-- Outcome of the detailed-tier model call plus `json.loads`:
* `apiError e` — `client.chat.completions.create` raised (transport error,
  quota, timeout, ...) with message `e`; caught by the outer
  `except Exception` of `compare_with_gpt`;
* `parseError` — the reply text is not well-formed JSON
  (`json.JSONDecodeError`, caught by the inner `except`);
* `notDict` — the reply parsed to a non-object, so `result_data.get`
  raises `AttributeError`, caught by the outer `except Exception`;
* `parsed r` — the reply decoded to an object with schema-typed fields. -/
inductive DetailedOutcome where
  | apiError (e : String)
  | parseError
  | notDict
  | parsed (r : DetailedReply)
deriving DecidableEq

/-- The detailed tier produced no usable decoded object (every case of
`DetailedOutcome` that sends `compare_with_gpt` into
`_fallback_simple_comparison`). -/
def DetailedOutcome.isFailure : DetailedOutcome → Bool
  | .parsed _ => false
  | _ => true

/-- Well-typed decoded JSON object for the simplified prompt. -/
structure SimpleReply where
  similarity_percentage : Option ℚ
  main_differences : Option (List String)
  explanation : Option String
deriving DecidableEq

/-- Outcome of the simplified-tier model call plus decoding:
`fails e` covers every exception raised inside the `try` of
`_fallback_simple_comparison` (API error, `json.JSONDecodeError`,
`AttributeError` on a non-object reply, `TypeError` on a non-numeric
percentage), with `str(e) = e`; `parsed r` is a successful decode. -/
inductive SimpleOutcome where
  | fails (e : String)
  | parsed (r : SimpleReply)
deriving DecidableEq

/-- `SemanticComparator._fallback_simple_comparison(text1, text2, model)`:
on success, confidence is the fixed constant 0.8 and the reported
percentage is divided by 100; on any exception, the final difflib
fallback result with confidence 0.3 and the error recorded under
`technical_analysis["error"]`. -/
def fallback_simple_comparison (text1 text2 : List Char) (s : SimpleOutcome)
    (now : String) : SemanticComparisonResult :=
  match s with
  | .parsed r =>
    { similarity_score := r.similarity_percentage.getD 0 / 100
      confidence := 8 / 10
      semantic_differences := r.main_differences.getD []
      technical_analysis := [("explanation", TAVal.str (r.explanation.getD ""))]
      reasoning := r.explanation.getD "Simple comparison performed"
      categories := []
      timestamp := now
      raw_similarity := ratio text1 text2 }
  | .fails e =>
    { similarity_score := ratio text1 text2
      confidence := 3 / 10
      semantic_differences := ["AI comparison failed, using text similarity"]
      technical_analysis := [("error", TAVal.str e)]
      reasoning := "Fallback to basic text comparison due to API error"
      categories := []
      timestamp := now
      raw_similarity := ratio text1 text2 }

/-- `SemanticComparator.compare_with_gpt(text1, text2, model)`: on a decoded
detailed reply, build the result with `result_data.get` defaults; on any
failure of the detailed tier, fall back to the simplified tier.  (The
`model` string only selects the external endpoint and does not appear in
the result.)  This function is total: every exception of the Python body is
caught and routed into the fallback, whose final branch always succeeds. -/
def compare_with_gpt (text1 text2 : List Char) (d : DetailedOutcome)
    (s : SimpleOutcome) (now : String) : SemanticComparisonResult :=
  match d with
  | .parsed r =>
    { similarity_score := r.similarity_score.getD 0
      confidence := r.confidence.getD 0
      semantic_differences := r.semantic_differences.getD []
      technical_analysis := r.technical_analysis.getD []
      reasoning := r.reasoning.getD ""
      categories := r.categories.getD []
      timestamp := now
      raw_similarity := ratio text1 text2 }
  | _ => fallback_simple_comparison text1 text2 s now

/-- `max(results.values(), key=lambda r: r.confidence)`: Python's `max`
keeps the first element among those of maximal key (it replaces the
current maximum only on strictly greater). -/
def bestResult (first : SemanticComparisonResult)
    (rest : List (String × SemanticComparisonResult)) : SemanticComparisonResult :=
  rest.foldl (fun acc q => if acc.confidence < q.2.confidence then q.2 else acc) first

/-- `SemanticComparator.get_consensus_result(results)`.  The Python input is
a dict from model name to result, iterated in insertion order; it is
modelled as an association list.  An empty input raises
`ValueError("No valid results to create consensus from")`.  The
`list(set(all_differences))` deduplication has implementation-defined order
in Python; it is modelled keeping first occurrences (no claim depends on
that order). -/
def get_consensus_result (results : List (String × SemanticComparisonResult))
    (now : String) : Except String SemanticComparisonResult :=
  match results with
  | [] => .error "No valid results to create consensus from"
  | [p] => .ok p.2
  | p :: ps =>
    let total_weighted_similarity : ℚ :=
      (p :: ps).foldl (fun acc q => acc + q.2.similarity_score * q.2.confidence) 0
    let total_weight : ℚ := (p :: ps).foldl (fun acc q => acc + q.2.confidence) 0
    let all_differences :=
      (p :: ps).foldl (fun acc q => acc ++ q.2.semantic_differences) []
    let all_reasoning := (p :: ps).map (fun q => q.1 ++ ": " ++ q.2.reasoning)
    let consensus_similarity :=
      if 0 < total_weight then total_weighted_similarity / total_weight else 0
    let best_result := bestResult p.2 ps
    .ok { similarity_score := consensus_similarity
          confidence := min 1 (total_weight / (((p :: ps).length : ℚ)))
          semantic_differences := all_differences.eraseDups
          technical_analysis := best_result.technical_analysis
          reasoning := "Consensus from multiple models: " ++
            String.intercalate "; " all_reasoning
          categories := best_result.categories
          timestamp := now
          raw_similarity := best_result.raw_similarity }

/-! ## Orchestrator (drawing_comparator_broken.py)

`ComparisonResult` of drawing_comparator_broken.py, without the
`differences` field (the unified-diff line list): no claim under study
refers to it.  Text extraction happens before the comparison logic and is
out of scope; the extracted texts are the inputs. -/

structure ComparisonResult where
  similarity_score : ℚ
  timestamp : String
  file1_text : List Char
  file2_text : List Char
  ai_analysis : Option SemanticComparisonResult
  comparison_method : String
  raw_similarity : ℚ
deriving DecidableEq

/-- `DrawingComparator.compare_with_method(file1, file2, method)` after text
extraction.  `semantic_comparator` is the availability of the AI client
(`self.semantic_comparator is not None`), `use_ai_comparison` the
constructor flag.  In mode `"ai"` an unavailable client raises
`ValueError("AI comparison not available. ...")` before any model call —
the result is this error for every `d`, `s`.  In the `else` (auto) branch
the `except` arm that would set `comparison_method = "basic_fallback"` is
unreachable because `compare_with_gpt` is total (see its docstring), so the
branch does not appear here. -/
def compare_with_method (text1 text2 : List Char) (method : String)
    (semantic_comparator use_ai_comparison : Bool)
    (d : DetailedOutcome) (s : SimpleOutcome) (now : String) :
    Except String ComparisonResult :=
  let raw_similarity := ratio text1 text2
  if method = "basic" then
    .ok { similarity_score := raw_similarity, timestamp := now,
          file1_text := text1, file2_text := text2, ai_analysis := none,
          comparison_method := "basic", raw_similarity := raw_similarity }
  else if method = "ai" then
    if semantic_comparator = false then
      .error "AI comparison not available. Please set OPENAI_API_KEY environment variable."
    else
      let ai := compare_with_gpt text1 text2 d s now
      .ok { similarity_score := ai.similarity_score, timestamp := now,
            file1_text := text1, file2_text := text2, ai_analysis := some ai,
            comparison_method := "ai", raw_similarity := raw_similarity }
  else
    if use_ai_comparison && semantic_comparator then
      let ai := compare_with_gpt text1 text2 d s now
      .ok { similarity_score := ai.similarity_score, timestamp := now,
            file1_text := text1, file2_text := text2, ai_analysis := some ai,
            comparison_method := "ai", raw_similarity := raw_similarity }
    else
      .ok { similarity_score := raw_similarity, timestamp := now,
            file1_text := text1, file2_text := text2, ai_analysis := none,
            comparison_method := "basic", raw_similarity := raw_similarity }

/-! ## Sanity checks of the difflib embedding

These values agree with CPython's
`difflib.SequenceMatcher(None, a, b).ratio()` on the same inputs. -/

example : ratio ['a', 'b'] ['b', 'a', 'c', 'b'] = 2 / 3 := by
  have h : matchesTotal ['a', 'b'] ['b', 'a', 'c', 'b'] = 2 := by decide
  rw [ratio, h]
  norm_num

example : ratio ['b', 'a', 'c', 'b'] ['a', 'b'] = 1 / 3 := by
  have h : matchesTotal ['b', 'a', 'c', 'b'] ['a', 'b'] = 1 := by decide
  rw [ratio, h]
  norm_num

example : ratio ['a', 'b', 'c'] ['a', 'b', 'c'] = 1 := by
  have h : matchesTotal ['a', 'b', 'c'] ['a', 'b', 'c'] = 3 := by decide
  rw [ratio, h]
  norm_num

/-! ## Claim theorems: cascade and orchestrator -/

/-- Claim C1, counterexample: the claim asserts that `similarity_score` and
`confidence` are clamped to [0,1] before being surfaced.  The code does not
clamp: a detailed-tier reply reporting `similarity_score = 1.5` and
`confidence = 2` is surfaced verbatim, out of range. -/
theorem c1_counterexample :
    (compare_with_gpt [] []
      (DetailedOutcome.parsed
        { similarity_score := some (3 / 2), confidence := some 2,
          semantic_differences := none, technical_analysis := none,
          reasoning := none, categories := none })
      (SimpleOutcome.fails "x") "t").similarity_score = 3 / 2 ∧
    (compare_with_gpt [] []
      (DetailedOutcome.parsed
        { similarity_score := some (3 / 2), confidence := some 2,
          semantic_differences := none, technical_analysis := none,
          reasoning := none, categories := none })
      (SimpleOutcome.fails "x") "t").confidence = 2 ∧
    ¬((compare_with_gpt [] []
      (DetailedOutcome.parsed
        { similarity_score := some (3 / 2), confidence := some 2,
          semantic_differences := none, technical_analysis := none,
          reasoning := none, categories := none })
      (SimpleOutcome.fails "x") "t").similarity_score ≤ 1) ∧
    ¬((compare_with_gpt [] []
      (DetailedOutcome.parsed
        { similarity_score := some (3 / 2), confidence := some 2,
          semantic_differences := none, technical_analysis := none,
          reasoning := none, categories := none })
      (SimpleOutcome.fails "x") "t").confidence ≤ 1) := by
  refine ⟨rfl, rfl, ?_, ?_⟩
  · show ¬((3 / 2 : ℚ) ≤ 1)
    norm_num
  · show ¬((2 : ℚ) ≤ 1)
    norm_num

/-- Claim C1, amended: no clamping happens anywhere — the values surfaced to
the caller (through mode "ai" of the orchestrator, both in the
`ComparisonResult` and in its nested AI analysis) are exactly the values the
model reported, with 0.0 substituted only for an absent key. -/
theorem c1_amended_scores_surfaced_verbatim (text1 text2 : List Char)
    (r : DetailedReply) (s : SimpleOutcome) (now : String) :
    ∃ cres ai,
      compare_with_method text1 text2 "ai" true true
          (DetailedOutcome.parsed r) s now = Except.ok cres ∧
      cres.ai_analysis = some ai ∧
      cres.similarity_score = r.similarity_score.getD 0 ∧
      ai.similarity_score = r.similarity_score.getD 0 ∧
      ai.confidence = r.confidence.getD 0 :=
  ⟨_, _, rfl, rfl, rfl, rfl, rfl⟩

/-- Claim C2, counterexample: the claim asserts a typed `ParseFailure` when
the score field is missing, with no silent defaulting.  The code instead
silently defaults: a well-formed detailed reply without `similarity_score`
yields a normal result with score 0.0 (and confidence 0.0), and a
well-formed simplified reply without `similarity_percentage` yields a
normal result with score 0.0. -/
theorem c2_counterexample :
    (compare_with_gpt ['a'] ['b']
      (DetailedOutcome.parsed
        { similarity_score := none, confidence := none,
          semantic_differences := none, technical_analysis := none,
          reasoning := none, categories := none })
      (SimpleOutcome.fails "x") "t").similarity_score = 0 ∧
    (compare_with_gpt ['a'] ['b']
      (DetailedOutcome.parsed
        { similarity_score := none, confidence := none,
          semantic_differences := none, technical_analysis := none,
          reasoning := none, categories := none })
      (SimpleOutcome.fails "x") "t").confidence = 0 ∧
    (compare_with_gpt ['a'] ['b'] (DetailedOutcome.apiError "e")
      (SimpleOutcome.parsed
        { similarity_percentage := none, main_differences := none,
          explanation := none }) "t").similarity_score = 0 := by
  refine ⟨rfl, rfl, ?_⟩
  show (Option.getD none (0 : ℚ)) / 100 = 0
  norm_num

/-- Claim C2, amended: there is no typed parse exception.  Malformed
structured data makes the tier fail silently into the next tier of the
cascade, and a missing score field is silently defaulted — the detailed
variant's `similarity_score` to 0.0, the simplified variant's
`similarity_percentage` to 0 (hence score 0.0). -/
theorem c2_amended_silent_defaults :
    (∀ (text1 text2 : List Char) (s : SimpleOutcome) (now : String)
        (r : DetailedReply), r.similarity_score = none →
      (compare_with_gpt text1 text2 (DetailedOutcome.parsed r) s now).similarity_score = 0) ∧
    (∀ (text1 text2 : List Char) (s : SimpleOutcome) (now : String),
      compare_with_gpt text1 text2 DetailedOutcome.parseError s now =
        fallback_simple_comparison text1 text2 s now) ∧
    (∀ (text1 text2 : List Char) (d : DetailedOutcome) (rs : SimpleReply)
        (now : String), d.isFailure = true → rs.similarity_percentage = none →
      (compare_with_gpt text1 text2 d (SimpleOutcome.parsed rs) now).similarity_score = 0) := by
  refine ⟨?_, ?_, ?_⟩
  · intro text1 text2 s now r hr
    simp [compare_with_gpt, hr]
  · intro text1 text2 s now
    rfl
  · intro text1 text2 d rs now hd hrs
    cases d with
    | parsed r => simp [DetailedOutcome.isFailure] at hd
    | apiError e => simp [compare_with_gpt, fallback_simple_comparison, hrs]
    | parseError => simp [compare_with_gpt, fallback_simple_comparison, hrs]
    | notDict => simp [compare_with_gpt, fallback_simple_comparison, hrs]

/-- Witness for the amended claim C2, at concrete inputs. -/
theorem c2_amended_silent_defaults_witness :
    (({ similarity_score := none, confidence := none,
        semantic_differences := none, technical_analysis := none,
        reasoning := none, categories := none } : DetailedReply).similarity_score = none ∧
      (compare_with_gpt [] [] (DetailedOutcome.parsed
        { similarity_score := none, confidence := none,
          semantic_differences := none, technical_analysis := none,
          reasoning := none, categories := none })
        (SimpleOutcome.fails "x") "t").similarity_score = 0) ∧
    ((DetailedOutcome.apiError "e").isFailure = true ∧
      ({ similarity_percentage := none, main_differences := none,
         explanation := none } : SimpleReply).similarity_percentage = none ∧
      (compare_with_gpt [] [] (DetailedOutcome.apiError "e")
        (SimpleOutcome.parsed
          { similarity_percentage := none, main_differences := none,
            explanation := none }) "t").similarity_score = 0) :=
  ⟨⟨rfl, c2_amended_silent_defaults.1 [] [] (SimpleOutcome.fails "x") "t" _ rfl⟩,
   ⟨rfl, rfl, c2_amended_silent_defaults.2.2 [] [] (DetailedOutcome.apiError "e") _ "t" rfl rfl⟩⟩

/-- Claim C5: in auto mode (the `else` branch of `compare_with_method`) with
an available AI client, the result always reports
`comparison_method = "ai"`, for every outcome of the detailed and
simplified model calls — tier-internal degradation, including full
degradation to the lexical tier, is invisible to the orchestrator.  (The
`except` arm of the source that would relabel to `"basic_fallback"` cannot
fire, since `compare_with_gpt` catches all its exceptions internally.) -/
theorem c5_auto_with_client_reports_ai (text1 text2 : List Char)
    (d : DetailedOutcome) (s : SimpleOutcome) (now : String) :
    ∃ r, compare_with_method text1 text2 "auto" true true d s now = Except.ok r ∧
      r.comparison_method = "ai" :=
  ⟨_, rfl, rfl⟩

/-- Claim C6: when both tiers fail (for any detailed-tier failure and any
simple-tier exception `e`), the cascade returns — without propagating any
exception — exactly the lexical fallback result: score = lexical ratio,
confidence 0.3, the fixed difference message, and the triggering error
under the "error" key of `technical_analysis`. -/
theorem c6_double_failure_lexical_fallback (text1 text2 : List Char)
    (d : DetailedOutcome) (e : String) (now : String)
    (hd : d.isFailure = true) :
    compare_with_gpt text1 text2 d (SimpleOutcome.fails e) now =
      { similarity_score := ratio text1 text2
        confidence := 3 / 10
        semantic_differences := ["AI comparison failed, using text similarity"]
        technical_analysis := [("error", TAVal.str e)]
        reasoning := "Fallback to basic text comparison due to API error"
        categories := []
        timestamp := now
        raw_similarity := ratio text1 text2 } := by
  cases d with
  | parsed r => simp [DetailedOutcome.isFailure] at hd
  | apiError e' => rfl
  | parseError => rfl
  | notDict => rfl

/-- Witness for claim C6 at a concrete input. -/
theorem c6_double_failure_lexical_fallback_witness :
    (DetailedOutcome.apiError "boom").isFailure = true ∧
    compare_with_gpt [] [] (DetailedOutcome.apiError "boom")
        (SimpleOutcome.fails "down") "t0" =
      { similarity_score := ratio [] []
        confidence := 3 / 10
        semantic_differences := ["AI comparison failed, using text similarity"]
        technical_analysis := [("error", TAVal.str "down")]
        reasoning := "Fallback to basic text comparison due to API error"
        categories := []
        timestamp := "t0"
        raw_similarity := ratio [] [] } :=
  ⟨rfl, c6_double_failure_lexical_fallback [] [] (DetailedOutcome.apiError "boom")
    "down" "t0" rfl⟩

/-- Claim C7: when the detailed attempt fails but the simplified attempt
succeeds, the cascade returns (without propagating any exception) a result
with confidence exactly 0.8 — regardless of the reply's contents — and
`similarity_score` equal to the reported `similarity_percentage` divided by
100. -/
theorem c7_simple_tier_success (text1 text2 : List Char) (d : DetailedOutcome)
    (r : SimpleReply) (now : String) (q : ℚ)
    (hd : d.isFailure = true) (hq : r.similarity_percentage = some q) :
    (compare_with_gpt text1 text2 d (SimpleOutcome.parsed r) now).confidence = 8 / 10 ∧
    (compare_with_gpt text1 text2 d (SimpleOutcome.parsed r) now).similarity_score =
      q / 100 := by
  cases d with
  | parsed r' => simp [DetailedOutcome.isFailure] at hd
  | apiError e => exact ⟨rfl, by simp [compare_with_gpt, fallback_simple_comparison, hq]⟩
  | parseError => exact ⟨rfl, by simp [compare_with_gpt, fallback_simple_comparison, hq]⟩
  | notDict => exact ⟨rfl, by simp [compare_with_gpt, fallback_simple_comparison, hq]⟩

/-- Witness for claim C7 at a concrete input. -/
theorem c7_simple_tier_success_witness :
    (DetailedOutcome.parseError).isFailure = true ∧
    ({ similarity_percentage := some 50, main_differences := none,
       explanation := none } : SimpleReply).similarity_percentage = some 50 ∧
    ((compare_with_gpt [] [] DetailedOutcome.parseError
        (SimpleOutcome.parsed
          { similarity_percentage := some 50, main_differences := none,
            explanation := none }) "t0").confidence = 8 / 10 ∧
      (compare_with_gpt [] [] DetailedOutcome.parseError
        (SimpleOutcome.parsed
          { similarity_percentage := some 50, main_differences := none,
            explanation := none }) "t0").similarity_score = 50 / 100) :=
  ⟨rfl, rfl, c7_simple_tier_success [] [] DetailedOutcome.parseError _ "t0" 50 rfl rfl⟩

/-- Claim C9: invoking the orchestrator in mode "ai" with no AI client
configured fails immediately with the service-unavailable `ValueError`, for
every model-call outcome (`d`, `s`) — so zero model calls are made and no
fallback to the lexical path happens. -/
theorem c9_ai_mode_unavailable_fails_fast (text1 text2 : List Char)
    (use_ai_comparison : Bool) (d : DetailedOutcome) (s : SimpleOutcome)
    (now : String) :
    compare_with_method text1 text2 "ai" false use_ai_comparison d s now =
      Except.error
        "AI comparison not available. Please set OPENAI_API_KEY environment variable." :=
  rfl

/-! ## Claim theorems: consensus engine -/

/-- The `+=` accumulation of confidences in `get_consensus_result` is the
sum of the mapped list. -/
lemma foldl_conf_sum (l : List (String × SemanticComparisonResult)) (x : ℚ) :
    l.foldl (fun acc q => acc + q.2.confidence) x =
      x + (l.map (fun q => q.2.confidence)).sum := by
  induction l generalizing x with
  | nil => simp
  | cons h t ih => simp [ih]; ring

/-- The `+=` accumulation of confidence-weighted scores in
`get_consensus_result` is the sum of the mapped list. -/
lemma foldl_weighted_sum (l : List (String × SemanticComparisonResult)) (x : ℚ) :
    l.foldl (fun acc q => acc + q.2.similarity_score * q.2.confidence) x =
      x + (l.map (fun q => q.2.similarity_score * q.2.confidence)).sum := by
  induction l generalizing x with
  | nil => simp
  | cons h t ih => simp [ih]; ring

/-- Claim C8: for two or more results, the consensus `similarity_score` is
the confidence-weighted average Σ(scoreᵢ·confᵢ)/Σ(confᵢ) whenever the
total weight is positive, and is defined as 0.0 when all confidences sum to
zero — with no division-by-zero fault (the function returns normally). -/
theorem c8_consensus_weighted_average (p1 p2 : String × SemanticComparisonResult)
    (ps : List (String × SemanticComparisonResult)) (now : String) :
    ∃ r, get_consensus_result (p1 :: p2 :: ps) now = Except.ok r ∧
      (0 < ((p1 :: p2 :: ps).map (fun q => q.2.confidence)).sum →
        r.similarity_score =
          ((p1 :: p2 :: ps).map (fun q => q.2.similarity_score * q.2.confidence)).sum /
            ((p1 :: p2 :: ps).map (fun q => q.2.confidence)).sum) ∧
      (((p1 :: p2 :: ps).map (fun q => q.2.confidence)).sum = 0 →
        r.similarity_score = 0) := by
  refine ⟨_, rfl, ?_, ?_⟩
  · intro hpos
    show (if 0 < (p1 :: p2 :: ps).foldl (fun acc q => acc + q.2.confidence) (0 : ℚ) then
        (p1 :: p2 :: ps).foldl (fun acc q => acc + q.2.similarity_score * q.2.confidence) (0 : ℚ) /
          (p1 :: p2 :: ps).foldl (fun acc q => acc + q.2.confidence) (0 : ℚ)
      else 0) = _
    rw [foldl_conf_sum, foldl_weighted_sum, zero_add, zero_add, if_pos hpos]
  · intro hzero
    show (if 0 < (p1 :: p2 :: ps).foldl (fun acc q => acc + q.2.confidence) (0 : ℚ) then
        (p1 :: p2 :: ps).foldl (fun acc q => acc + q.2.similarity_score * q.2.confidence) (0 : ℚ) /
          (p1 :: p2 :: ps).foldl (fun acc q => acc + q.2.confidence) (0 : ℚ)
      else 0) = 0
    rw [foldl_conf_sum, zero_add, hzero]
    simp

/-- Witness for claim C8 (the spec's own example): results with
(score 0.8, confidence 1) and (score 0.4, confidence 0) give consensus
similarity 0.8 — the zero-confidence result contributes nothing. -/
theorem c8_consensus_weighted_average_witness :
    ∃ r, get_consensus_result
        [("gpt-4o",
          { similarity_score := 8 / 10, confidence := 1,
            semantic_differences := [], technical_analysis := [],
            reasoning := "", categories := [], timestamp := "",
            raw_similarity := 0 }),
         ("gpt-3.5-turbo",
          { similarity_score := 4 / 10, confidence := 0,
            semantic_differences := [], technical_analysis := [],
            reasoning := "", categories := [], timestamp := "",
            raw_similarity := 0 })] "t" = Except.ok r ∧
      r.similarity_score = 8 / 10 := by
  obtain ⟨r, hok, h1, h2⟩ := c8_consensus_weighted_average
    ("gpt-4o",
      { similarity_score := 8 / 10, confidence := 1,
        semantic_differences := [], technical_analysis := [],
        reasoning := "", categories := [], timestamp := "",
        raw_similarity := 0 })
    ("gpt-3.5-turbo",
      { similarity_score := 4 / 10, confidence := 0,
        semantic_differences := [], technical_analysis := [],
        reasoning := "", categories := [], timestamp := "",
        raw_similarity := 0 })
    [] "t"
  refine ⟨r, hok, ?_⟩
  rw [h1 (by norm_num)]
  norm_num

/-- Characterization of the Python `max(values, key=lambda r: r.confidence)`
fold: the result is either the seed (when nothing beats it) or the first
element of the list whose confidence strictly exceeds the seed's and every
earlier element's, and in both cases it dominates all elements. -/
lemma bestResult_spec (first : SemanticComparisonResult)
    (rest : List (String × SemanticComparisonResult)) :
    (bestResult first rest = first ∧
      ∀ x ∈ rest, x.2.confidence ≤ first.confidence) ∨
    (∃ l1 q l2, rest = l1 ++ q :: l2 ∧ bestResult first rest = q.2 ∧
      first.confidence < q.2.confidence ∧
      (∀ x ∈ l1, x.2.confidence < q.2.confidence) ∧
      (∀ x ∈ rest, x.2.confidence ≤ q.2.confidence)) := by
  induction rest generalizing first with
  | nil => left; exact ⟨rfl, by simp⟩
  | cons h t ih =>
    by_cases hc : first.confidence < h.2.confidence
    · have hstep : bestResult first (h :: t) = bestResult h.2 t := by
        simp [bestResult, hc]
      rcases ih h.2 with ⟨hb, hmax⟩ | ⟨l1, q, l2, heq, hb, hgt, hl1, hall⟩
      · right
        refine ⟨[], h, t, rfl, by rw [hstep, hb], hc, by simp, ?_⟩
        intro x hx
        rcases List.mem_cons.mp hx with hx | hx
        · subst hx; exact le_refl _
        · exact hmax x hx
      · right
        refine ⟨h :: l1, q, l2, by simp [heq], by rw [hstep, hb],
          lt_trans hc hgt, ?_, ?_⟩
        · intro x hx
          rcases List.mem_cons.mp hx with hx | hx
          · subst hx; exact hgt
          · exact hl1 x hx
        · intro x hx
          rcases List.mem_cons.mp hx with hx | hx
          · subst hx; exact le_of_lt hgt
          · exact hall x hx
    · have hstep : bestResult first (h :: t) = bestResult first t := by
        simp [bestResult, hc]
      rcases ih first with ⟨hb, hmax⟩ | ⟨l1, q, l2, heq, hb, hgt, hl1, hall⟩
      · left
        refine ⟨by rw [hstep, hb], ?_⟩
        intro x hx
        rcases List.mem_cons.mp hx with hx | hx
        · subst hx; exact le_of_not_lt hc
        · exact hmax x hx
      · right
        refine ⟨h :: l1, q, l2, by simp [heq], by rw [hstep, hb], hgt, ?_, ?_⟩
        · intro x hx
          rcases List.mem_cons.mp hx with hx | hx
          · subst hx; exact lt_of_le_of_lt (le_of_not_lt hc) hgt
          · exact hl1 x hx
        · intro x hx
          rcases List.mem_cons.mp hx with hx | hx
          · subst hx; exact le_of_lt (lt_of_le_of_lt (le_of_not_lt hc) hgt)
          · exact hall x hx

/-- Claim C10: for two or more results, the consensus result's
`raw_similarity`, `technical_analysis` and `categories` are copied verbatim
from one single contributing result — the first of maximal confidence —
rather than being recomputed from the inputs or averaged: the copied-from
result is a member of the input list, every earlier member has strictly
smaller confidence, and no member has larger confidence. -/
theorem c10_consensus_copies_best_fields (p1 p2 : String × SemanticComparisonResult)
    (ps : List (String × SemanticComparisonResult)) (now : String) :
    ∃ r, get_consensus_result (p1 :: p2 :: ps) now = Except.ok r ∧
      ∃ l1 q l2, p1 :: p2 :: ps = l1 ++ q :: l2 ∧
        r.raw_similarity = q.2.raw_similarity ∧
        r.technical_analysis = q.2.technical_analysis ∧
        r.categories = q.2.categories ∧
        (∀ x ∈ l1, x.2.confidence < q.2.confidence) ∧
        (∀ x ∈ p1 :: p2 :: ps, x.2.confidence ≤ q.2.confidence) := by
  refine ⟨_, rfl, ?_⟩
  rcases bestResult_spec p1.2 (p2 :: ps) with ⟨hb, hmax⟩ | ⟨l1, q, l2, heq, hb, hgt, hl1, hall⟩
  · refine ⟨[], p1, p2 :: ps, rfl, ?_, ?_, ?_, by simp, ?_⟩
    · show (bestResult p1.2 (p2 :: ps)).raw_similarity = _
      rw [hb]
    · show (bestResult p1.2 (p2 :: ps)).technical_analysis = _
      rw [hb]
    · show (bestResult p1.2 (p2 :: ps)).categories = _
      rw [hb]
    · intro x hx
      rcases List.mem_cons.mp hx with hx | hx
      · subst hx; exact le_refl _
      · exact hmax x hx
  · refine ⟨p1 :: l1, q, l2, by simp [heq], ?_, ?_, ?_, ?_, ?_⟩
    · show (bestResult p1.2 (p2 :: ps)).raw_similarity = _
      rw [hb]
    · show (bestResult p1.2 (p2 :: ps)).technical_analysis = _
      rw [hb]
    · show (bestResult p1.2 (p2 :: ps)).categories = _
      rw [hb]
    · intro x hx
      rcases List.mem_cons.mp hx with hx | hx
      · subst hx; exact hgt
      · exact hl1 x hx
    · intro x hx
      rcases List.mem_cons.mp hx with hx | hx
      · subst hx; exact le_of_lt hgt
      · exact hall x hx

/-! ## Lexical ratio: degenerate windows and empty inputs -/

/-- In a window with `bhi ≤ blo` the inner loop never updates the best
triple: every candidate `j` is either skipped (`j < blo`) or hits the
break (`j ≥ bhi`). -/
lemma innerLoop_snd_of_degb (blo bhi i : Nat) (fOld : Nat → Nat)
    (hbb : bhi ≤ blo) :
    ∀ js fNew B, (innerLoop blo bhi i fOld js fNew B).2 = B := by
  intro js
  induction js with
  | nil => intro fNew B; rfl
  | cons j t ih =>
    intro fNew B
    by_cases h1 : j < blo
    · simp only [innerLoop, if_pos h1]
      exact ih fNew B
    · have h2 : bhi ≤ j := le_trans hbb (le_of_not_lt h1)
      simp only [innerLoop, if_neg h1, if_pos h2]

/-- In a window with `bhi ≤ blo` the whole row loop leaves the best triple
unchanged. -/
lemma rowsLoop_of_degb (a b : List Char) (blo bhi : Nat) (hbb : bhi ≤ blo) :
    ∀ fuel i f B, rowsLoop a b blo bhi i fuel f B = B := by
  intro fuel
  induction fuel with
  | zero => intro i f B; rfl
  | succ n ih =>
    intro i f B
    show rowsLoop a b blo bhi (i + 1) n _ _ = B
    rw [innerLoop_snd_of_degb blo bhi i f hbb]
    exact ih (i + 1) _ B

/-- The backward extension stops immediately when `besti = alo`. -/
lemma extendBack_bi_self (a b : List Char) (alo blo : Nat) (p : Char → Bool)
    (bj bs : Nat) : extendBack a b alo blo p alo bj bs = ⟨alo, bj, bs⟩ := by
  cases alo with
  | zero => rfl
  | succ t =>
    show (if t + 1 < t + 1 ∧ _ ∧ _ ∧ _ then _ else _) = _
    rw [if_neg]
    intro h
    exact absurd h.1 (lt_irrefl (t + 1))

/-- The backward extension stops immediately when `bestj = blo`. -/
lemma extendBack_bj_self (a b : List Char) (alo blo : Nat) (p : Char → Bool)
    (bi bs : Nat) : extendBack a b alo blo p bi blo bs = ⟨bi, blo, bs⟩ := by
  cases bi with
  | zero => rfl
  | succ t =>
    show (if _ ∧ blo < blo ∧ _ ∧ _ then _ else _) = _
    rw [if_neg]
    intro h
    exact absurd h.2.1 (lt_irrefl blo)

/-- The forward extension returns `bs` unchanged when its loop condition
fails at entry. -/
lemma extendFwdGo_stop (a b : List Char) (ahi bhi : Nat) (p : Char → Bool)
    (bi bj fuel bs : Nat)
    (h : ¬(bi + bs < ahi ∧ bj + bs < bhi ∧ p (b.getD (bj + bs) ' ') = true ∧
      a.getD (bi + bs) ' ' = b.getD (bj + bs) ' ')) :
    extendFwdGo a b ahi bhi p bi bj fuel bs = bs := by
  cases fuel with
  | zero => rfl
  | succ n =>
    show (if _ then _ else _) = _
    rw [if_neg h]

/-- A window that is empty on the `a` side yields the empty match
`(alo, blo, 0)`. -/
lemma flm_of_dega (a b : List Char) (alo ahi blo bhi : Nat) (h : ahi ≤ alo) :
    find_longest_match a b alo ahi blo bhi = ⟨alo, blo, 0⟩ := by
  have h0 : ahi - alo = 0 := Nat.sub_eq_zero_of_le h
  have hf : ahi - (alo + 0) = 0 := by omega
  show (let best1 := rowsLoop a b blo bhi alo (ahi - alo) (fun _ => 0) ⟨alo, blo, 0⟩
    let e1 := extendBack a b alo blo (fun c => !isbjunk c) best1.besti best1.bestj best1.bestsize
    let s1 := extendFwd a b ahi bhi (fun c => !isbjunk c) e1.besti e1.bestj e1.bestsize
    let e2 := extendBack a b alo blo (fun c => isbjunk c) e1.besti e1.bestj s1
    let s2 := extendFwd a b ahi bhi (fun c => isbjunk c) e2.besti e2.bestj e2.bestsize
    (⟨e2.besti, e2.bestj, s2⟩ : FLM)) = ⟨alo, blo, 0⟩
  rw [h0]
  show (let e1 := extendBack a b alo blo (fun c => !isbjunk c) alo blo 0
    let s1 := extendFwd a b ahi bhi (fun c => !isbjunk c) e1.besti e1.bestj e1.bestsize
    let e2 := extendBack a b alo blo (fun c => isbjunk c) e1.besti e1.bestj s1
    let s2 := extendFwd a b ahi bhi (fun c => isbjunk c) e2.besti e2.bestj e2.bestsize
    (⟨e2.besti, e2.bestj, s2⟩ : FLM)) = ⟨alo, blo, 0⟩
  rw [extendBack_bi_self]
  show (let s1 := extendFwd a b ahi bhi (fun c => !isbjunk c) alo blo 0
    let e2 := extendBack a b alo blo (fun c => isbjunk c) alo blo s1
    let s2 := extendFwd a b ahi bhi (fun c => isbjunk c) e2.besti e2.bestj e2.bestsize
    (⟨e2.besti, e2.bestj, s2⟩ : FLM)) = ⟨alo, blo, 0⟩
  show (let s1 := extendFwdGo a b ahi bhi (fun c => !isbjunk c) alo blo (ahi - (alo + 0)) 0
    let e2 := extendBack a b alo blo (fun c => isbjunk c) alo blo s1
    let s2 := extendFwd a b ahi bhi (fun c => isbjunk c) e2.besti e2.bestj e2.bestsize
    (⟨e2.besti, e2.bestj, s2⟩ : FLM)) = ⟨alo, blo, 0⟩
  rw [hf]
  show (let e2 := extendBack a b alo blo (fun c => isbjunk c) alo blo 0
    let s2 := extendFwd a b ahi bhi (fun c => isbjunk c) e2.besti e2.bestj e2.bestsize
    (⟨e2.besti, e2.bestj, s2⟩ : FLM)) = ⟨alo, blo, 0⟩
  rw [extendBack_bi_self]
  show (⟨alo, blo, extendFwdGo a b ahi bhi (fun c => isbjunk c) alo blo (ahi - (alo + 0)) 0⟩ : FLM)
    = ⟨alo, blo, 0⟩
  rw [hf]
  rfl

/-- A window that is empty on the `b` side yields the empty match
`(alo, blo, 0)`. -/
lemma flm_of_degb (a b : List Char) (alo ahi blo bhi : Nat) (h : bhi ≤ blo) :
    find_longest_match a b alo ahi blo bhi = ⟨alo, blo, 0⟩ := by
  show (let best1 := rowsLoop a b blo bhi alo (ahi - alo) (fun _ => 0) ⟨alo, blo, 0⟩
    let e1 := extendBack a b alo blo (fun c => !isbjunk c) best1.besti best1.bestj best1.bestsize
    let s1 := extendFwd a b ahi bhi (fun c => !isbjunk c) e1.besti e1.bestj e1.bestsize
    let e2 := extendBack a b alo blo (fun c => isbjunk c) e1.besti e1.bestj s1
    let s2 := extendFwd a b ahi bhi (fun c => isbjunk c) e2.besti e2.bestj e2.bestsize
    (⟨e2.besti, e2.bestj, s2⟩ : FLM)) = ⟨alo, blo, 0⟩
  rw [rowsLoop_of_degb a b blo bhi h]
  show (let e1 := extendBack a b alo blo (fun c => !isbjunk c) alo blo 0
    let s1 := extendFwd a b ahi bhi (fun c => !isbjunk c) e1.besti e1.bestj e1.bestsize
    let e2 := extendBack a b alo blo (fun c => isbjunk c) e1.besti e1.bestj s1
    let s2 := extendFwd a b ahi bhi (fun c => isbjunk c) e2.besti e2.bestj e2.bestsize
    (⟨e2.besti, e2.bestj, s2⟩ : FLM)) = ⟨alo, blo, 0⟩
  rw [extendBack_bj_self]
  show (let s1 := extendFwdGo a b ahi bhi (fun c => !isbjunk c) alo blo (ahi - (alo + 0)) 0
    let e2 := extendBack a b alo blo (fun c => isbjunk c) alo blo s1
    let s2 := extendFwd a b ahi bhi (fun c => isbjunk c) e2.besti e2.bestj e2.bestsize
    (⟨e2.besti, e2.bestj, s2⟩ : FLM)) = ⟨alo, blo, 0⟩
  rw [extendFwdGo_stop a b ahi bhi _ alo blo _ 0 (by intro hcon; omega)]
  show (let e2 := extendBack a b alo blo (fun c => isbjunk c) alo blo 0
    let s2 := extendFwd a b ahi bhi (fun c => isbjunk c) e2.besti e2.bestj e2.bestsize
    (⟨e2.besti, e2.bestj, s2⟩ : FLM)) = ⟨alo, blo, 0⟩
  rw [extendBack_bj_self]
  show (⟨alo, blo, extendFwdGo a b ahi bhi (fun c => isbjunk c) alo blo (ahi - (alo + 0)) 0⟩ : FLM)
    = ⟨alo, blo, 0⟩
  rw [extendFwdGo_stop a b ahi bhi _ alo blo _ 0 (by intro hcon; omega)]

/-- With an empty first text the matching blocks are just the sentinel. -/
lemma gmb_nil_left (b : List Char) :
    get_matching_blocks [] b = [⟨0, b.length, 0⟩] := by
  have hgo : matchingBlocksGo [] b (b.length + 1) [(0, 0, 0, b.length)] [] = [] := by
    simp only [matchingBlocksGo, flm_of_dega [] b 0 0 0 b.length (le_refl 0), if_pos]
  have hq : queueMeasure [(0, 0, 0, b.length)] = b.length + 1 := by
    simp [queueMeasure, winMeasure]
  simp only [get_matching_blocks, List.length_nil, hq, hgo, sortBlocks, collapseGo,
    ne_eq, not_true_eq_false, if_false, List.nil_append]

/-- With an empty second text the matching blocks are just the sentinel. -/
lemma gmb_nil_right (a : List Char) :
    get_matching_blocks a [] = [⟨a.length, 0, 0⟩] := by
  have hgo : matchingBlocksGo a [] (a.length + 1) [(0, a.length, 0, 0)] [] = [] := by
    simp only [matchingBlocksGo, flm_of_degb a [] 0 a.length 0 0 (le_refl 0), if_pos]
  have hq : queueMeasure [(0, a.length, 0, 0)] = a.length + 1 := by
    simp [queueMeasure, winMeasure]
  simp only [get_matching_blocks, List.length_nil, hq, hgo, sortBlocks, collapseGo,
    ne_eq, not_true_eq_false, if_false, List.nil_append]

/-- `ratio("", "") = 1`. -/
lemma ratio_nil_nil : ratio [] [] = 1 := by
  rw [ratio]
  norm_num

/-- `ratio("", x) = 0` for nonempty `x`. -/
lemma ratio_nil_left (x : List Char) (hx : x ≠ []) : ratio [] x = 0 := by
  have hm : matchesTotal [] x = 0 := by
    rw [matchesTotal, gmb_nil_left]
    rfl
  have hl : x.length ≠ 0 := fun h => hx (List.eq_nil_of_length_eq_zero h)
  rw [ratio, hm]
  rw [if_pos (by simpa using hl)]
  simp

/-- `ratio(x, "") = 0` for nonempty `x`. -/
lemma ratio_nil_right (x : List Char) (hx : x ≠ []) : ratio x [] = 0 := by
  have hm : matchesTotal x [] = 0 := by
    rw [matchesTotal, gmb_nil_right]
    rfl
  have hl : x.length ≠ 0 := fun h => hx (List.eq_nil_of_length_eq_zero h)
  rw [ratio, hm]
  rw [if_pos (by simpa using hl)]
  simp

/-! ## Claim theorems: lexical ratio symmetry (C3) -/

/-- Claim C3, counterexample: the difflib ratio is not symmetric.  For
`a = "ab"`, `b = "bacb"` the matcher finds the two one-character blocks
`b` and a trailing `b`, giving 2·2/6 = 2/3, while in the swapped order the
greedy first-longest-block choice leaves only one match, 2·1/6 = 1/3. -/
theorem c3_counterexample :
    ratio ['a', 'b'] ['b', 'a', 'c', 'b'] ≠ ratio ['b', 'a', 'c', 'b'] ['a', 'b'] := by
  have h1 : matchesTotal ['a', 'b'] ['b', 'a', 'c', 'b'] = 2 := by decide
  have h2 : matchesTotal ['b', 'a', 'c', 'b'] ['a', 'b'] = 1 := by decide
  rw [ratio, ratio, h1, h2]
  norm_num

/-- Claim C3, amended: the ratio is symmetric on the edge cases the spec
singles out — whenever either input is empty (and trivially when the two
inputs coincide) — but not in general: both the tie-breaking of
`find_longest_match` and the autojunk purge (which applies to the second
sequence only) break symmetry, as the counterexample shows. -/
theorem c3_amended_symmetry_on_edge_cases (a b : List Char)
    (h : a = [] ∨ b = [] ∨ a = b) : ratio a b = ratio b a := by
  rcases h with h | h | h
  · subst h
    rcases eq_or_ne b [] with hb | hb
    · subst hb; rfl
    · rw [ratio_nil_left b hb, ratio_nil_right b hb]
  · subst h
    rcases eq_or_ne a [] with ha | ha
    · subst ha; rfl
    · rw [ratio_nil_left a ha, ratio_nil_right a ha]
  · subst h
    rfl

/-- Witness for the amended claim C3 at a concrete input. -/
theorem c3_amended_symmetry_on_edge_cases_witness :
    (([] : List Char) = [] ∨ ['q'] = ([] : List Char) ∨ ([] : List Char) = ['q']) ∧
    ratio [] ['q'] = ratio ['q'] [] :=
  ⟨Or.inl rfl, c3_amended_symmetry_on_edge_cases [] ['q'] (Or.inl rfl)⟩

/-! ## Claim C4: ratio(a, a) = 1 and the empty edge values

The main loop of `find_longest_match a a 0 n 0 n` only builds chains of
popular-free equal substrings, so the best triple it finds is always on the
diagonal (`besti = bestj`): the first chain to reach each new length is the
diagonal chain of the current popular-free run.  The non-junk extension
loops then extend any diagonal triple to the full window (every position of
`a` matches itself, and with `isjunk=None` nothing is junk), so the final
match is `(0, 0, n)` and the ratio is 1 — also in the autojunk regime. -/

lemma Drun_le (a : List Char) : ∀ j, Drun a j ≤ j + 1 := by
  intro j
  induction j with
  | zero =>
    rw [Drun]
    split <;> omega
  | succ t ih =>
    rw [Drun]
    split <;> omega

lemma Drun_of_pop (a : List Char) (j : Nat) (h : popRow a j = true) :
    Drun a j = 0 := by
  cases j with
  | zero => rw [Drun, if_pos h]
  | succ t => rw [Drun, if_pos h]

lemma Drun_of_nonpop (a : List Char) (j : Nat) (h : popRow a j = false) :
    Drun a j = Dm a j + 1 := by
  cases j with
  | zero => rw [Drun, if_neg (by rw [h]; exact Bool.false_ne_true), Dm]
  | succ t => rw [Drun, if_neg (by rw [h]; exact Bool.false_ne_true), Dm]

/-- Membership in the position list of an element. -/
lemma mem_posns (b : List Char) (c : Char) (j : Nat) :
    j ∈ posns b c ↔ j < b.length ∧ b.getD j ' ' = c := by
  rw [posns, List.mem_filter, List.mem_range]
  simp

/-- Splitting the position list of `a[i]` around the diagonal index `i`:
positions before `i` come first, then `i`, then positions after `i`. -/
lemma posns_split (a : List Char) (i : Nat) (hi : i < a.length) :
    ∃ pre post, posns a (a.getD i ' ') = pre ++ i :: post ∧
      (∀ j ∈ pre, j < i ∧ a.getD j ' ' = a.getD i ' ') ∧
      (∀ j ∈ post, i < j ∧ j < a.length ∧ a.getD j ' ' = a.getD i ' ') := by
  have hsplit : a.length = (i + 1) + (a.length - (i + 1)) := by omega
  refine ⟨(List.range i).filter (fun j => a.getD j ' ' == a.getD i ' '),
    ((List.range (a.length - (i + 1))).map (fun t => i + 1 + t)).filter
      (fun j => a.getD j ' ' == a.getD i ' '), ?_, ?_, ?_⟩
  · rw [posns, hsplit, List.range_add, List.filter_append, List.range_succ,
      List.filter_append]
    have hfi : List.filter (fun j => a.getD j ' ' == a.getD i ' ') [i] = [i] := by
      simp
    rw [hfi]
    simp
  · intro j hj
    rw [List.mem_filter, List.mem_range] at hj
    exact ⟨hj.1, by simpa using hj.2⟩
  · intro j hj
    rw [List.mem_filter, List.mem_map] at hj
    obtain ⟨⟨t, ht, rfl⟩, hv⟩ := hj
    rw [List.mem_range] at ht
    exact ⟨by omega, by omega, by simpa using hv⟩

/-- The inner loop processes an append left-to-right, provided no element of
the first part triggers the break. -/
lemma innerLoop_append (blo bhi i : Nat) (fOld : Nat → Nat) (l1 l2 : List Nat)
    (h : ∀ j ∈ l1, j < bhi) :
    ∀ fNew B, innerLoop blo bhi i fOld (l1 ++ l2) fNew B =
      innerLoop blo bhi i fOld l2 (innerLoop blo bhi i fOld l1 fNew B).1
        (innerLoop blo bhi i fOld l1 fNew B).2 := by
  induction l1 with
  | nil => intro fNew B; rfl
  | cons j t ih =>
    intro fNew B
    have hjbhi : ¬(bhi ≤ j) := not_le_of_lt (h j (List.mem_cons_self j t))
    have ht : ∀ x ∈ t, x < bhi := fun x hx => h x (List.mem_cons_of_mem j hx)
    by_cases h1 : j < blo
    · simp only [List.cons_append, innerLoop, if_pos h1]
      exact ih ht fNew B
    · simp only [List.cons_append, innerLoop, if_neg h1, if_neg hjbhi]
      exact ih ht _ _

lemma popRow_congr (a : List Char) (i j : Nat) (h : a.getD j ' ' = a.getD i ' ') :
    popRow a j = popRow a i := by
  rw [popRow, popRow, h]

/-- For `j ≥ 1`, `Dm a j` is the run length at `j - 1`. -/
lemma Dm_pred (a : List Char) (j : Nat) (hj : 0 < j) : Dm a j = Drun a (j - 1) := by
  rcases j with _ | t
  · omega
  · show Dm a (t + 1) = Drun a (t + 1 - 1)
    rw [Dm, Nat.add_sub_cancel]

/-- Processing candidate positions strictly before the diagonal: every chain
value stays bounded by the current run length on both sides, so nothing can
beat the best size recorded by earlier rows, and the best triple is
untouched. -/
lemma inner_pre (a : List Char) (i : Nat) (hi : i < a.length) (fOld : Nat → Nat)
    (hnp : popRow a i = false)
    (hfa : ∀ j, fOld j ≤ Dm a i)
    (hfj : ∀ j, fOld j ≤ Drun a j) :
    ∀ js, (∀ j ∈ js, j < i ∧ a.getD j ' ' = a.getD i ' ') →
    ∀ fNew B,
      (∀ j, fNew j ≤ Drun a i) →
      (∀ j, fNew j ≤ Drun a j) →
      (∀ j, j < i → Drun a j ≤ B.bestsize) →
      (innerLoop 0 a.length i fOld js fNew B).2 = B ∧
      (∀ j, (innerLoop 0 a.length i fOld js fNew B).1 j ≤ Drun a i) ∧
      (∀ j, (innerLoop 0 a.length i fOld js fNew B).1 j ≤ Drun a j) ∧
      (∀ j, i ≤ j → (innerLoop 0 a.length i fOld js fNew B).1 j = fNew j) := by
  intro js
  induction js with
  | nil =>
    intro hmem fNew B h1 h2 h3
    exact ⟨rfl, h1, h2, fun j _ => rfl⟩
  | cons j t ih =>
    intro hmem fNew B h1 h2 h3
    obtain ⟨hji, hjc⟩ := hmem j (List.mem_cons_self j t)
    have hmt : ∀ x ∈ t, x < i ∧ a.getD x ' ' = a.getD i ' ' :=
      fun x hx => hmem x (List.mem_cons_of_mem j hx)
    have hg1 : ¬(j < 0) := by omega
    have hg2 : ¬(a.length ≤ j) := by omega
    have hpj : popRow a j = false := by rw [popRow_congr a i j hjc]; exact hnp
    have hDj : Drun a j = Dm a j + 1 := Drun_of_nonpop a j hpj
    have hDi : Drun a i = Dm a i + 1 := Drun_of_nonpop a i hnp
    have hkDj : (if j = 0 then 0 else fOld (j - 1)) + 1 ≤ Drun a j := by
      rcases Nat.eq_zero_or_pos j with hj0 | hjpos
      · subst hj0
        rw [if_pos rfl, hDj, Dm]
      · rw [if_neg (by omega)]
        have h4 := hfj (j - 1)
        have h5 := Dm_pred a j hjpos
        omega
    have hkDi : (if j = 0 then 0 else fOld (j - 1)) + 1 ≤ Drun a i := by
      rcases Nat.eq_zero_or_pos j with hj0 | hjpos
      · subst hj0
        rw [if_pos rfl, hDi]
        omega
      · rw [if_neg (by omega)]
        have h4 := hfa (j - 1)
        omega
    have hnoup : ¬(B.bestsize < (if j = 0 then 0 else fOld (j - 1)) + 1) := by
      have h5 := h3 j hji
      omega
    simp only [innerLoop, if_neg hg1, if_neg hg2, if_neg hnoup]
    have hb1 : ∀ j', (fun j' => if j' = j then (if j = 0 then 0 else fOld (j - 1)) + 1
        else fNew j') j' ≤ Drun a i := by
      intro j'
      by_cases hee : j' = j
      · simpa [hee] using hkDi
      · simpa [hee] using h1 j'
    have hb2 : ∀ j', (fun j' => if j' = j then (if j = 0 then 0 else fOld (j - 1)) + 1
        else fNew j') j' ≤ Drun a j' := by
      intro j'
      by_cases hee : j' = j
      · subst hee
        simpa using hkDj
      · simpa [hee] using h2 j'
    obtain ⟨g1, g2, g3, g4⟩ := ih hmt _ B hb1 hb2 h3
    refine ⟨g1, g2, g3, fun j' hj' => ?_⟩
    rw [g4 j' hj']
    simp [show ¬(j' = j) from by omega]

/-- Processing candidate positions strictly after the diagonal: every chain
value is bounded by the current run length, hence by the best size already
recorded at the diagonal, so again the best triple is untouched and the
keys up to the diagonal keep their values. -/
lemma inner_post (a : List Char) (i : Nat) (hi : i < a.length) (fOld : Nat → Nat)
    (hnp : popRow a i = false)
    (hfa : ∀ j, fOld j ≤ Dm a i)
    (hfj : ∀ j, fOld j ≤ Drun a j) :
    ∀ js, (∀ j ∈ js, i < j ∧ j < a.length ∧ a.getD j ' ' = a.getD i ' ') →
    ∀ fNew B,
      (∀ j, fNew j ≤ Drun a i) →
      (∀ j, fNew j ≤ Drun a j) →
      (Drun a i ≤ B.bestsize) →
      (innerLoop 0 a.length i fOld js fNew B).2 = B ∧
      (∀ j, (innerLoop 0 a.length i fOld js fNew B).1 j ≤ Drun a i) ∧
      (∀ j, (innerLoop 0 a.length i fOld js fNew B).1 j ≤ Drun a j) ∧
      (∀ j, j ≤ i → (innerLoop 0 a.length i fOld js fNew B).1 j = fNew j) := by
  intro js
  induction js with
  | nil =>
    intro hmem fNew B h1 h2 h3
    exact ⟨rfl, h1, h2, fun j _ => rfl⟩
  | cons j t ih =>
    intro hmem fNew B h1 h2 h3
    obtain ⟨hji, hjn, hjc⟩ := hmem j (List.mem_cons_self j t)
    have hmt : ∀ x ∈ t, i < x ∧ x < a.length ∧ a.getD x ' ' = a.getD i ' ' :=
      fun x hx => hmem x (List.mem_cons_of_mem j hx)
    have hg1 : ¬(j < 0) := by omega
    have hg2 : ¬(a.length ≤ j) := by omega
    have hpj : popRow a j = false := by rw [popRow_congr a i j hjc]; exact hnp
    have hDj : Drun a j = Dm a j + 1 := Drun_of_nonpop a j hpj
    have hDi : Drun a i = Dm a i + 1 := Drun_of_nonpop a i hnp
    have hjpos : 0 < j := by omega
    have hkDj : (if j = 0 then 0 else fOld (j - 1)) + 1 ≤ Drun a j := by
      rw [if_neg (by omega)]
      have h4 := hfj (j - 1)
      have h5 := Dm_pred a j hjpos
      omega
    have hkDi : (if j = 0 then 0 else fOld (j - 1)) + 1 ≤ Drun a i := by
      rw [if_neg (by omega)]
      have h4 := hfa (j - 1)
      omega
    have hnoup : ¬(B.bestsize < (if j = 0 then 0 else fOld (j - 1)) + 1) := by
      omega
    simp only [innerLoop, if_neg hg1, if_neg hg2, if_neg hnoup]
    have hb1 : ∀ j', (fun j' => if j' = j then (if j = 0 then 0 else fOld (j - 1)) + 1
        else fNew j') j' ≤ Drun a i := by
      intro j'
      by_cases hee : j' = j
      · simpa [hee] using hkDi
      · simpa [hee] using h1 j'
    have hb2 : ∀ j', (fun j' => if j' = j then (if j = 0 then 0 else fOld (j - 1)) + 1
        else fNew j') j' ≤ Drun a j' := by
      intro j'
      by_cases hee : j' = j
      · subst hee
        simpa using hkDj
      · simpa [hee] using h2 j'
    obtain ⟨g1, g2, g3, g4⟩ := ih hmt _ B hb1 hb2 h3
    refine ⟨g1, g2, g3, fun j' hj' => ?_⟩
    rw [g4 j' hj']
    simp [show ¬(j' = j) from by omega]

/-- One row of the main loop of `find_longest_match a a 0 n 0 n` preserves
the invariant: on a popular row the candidate list is empty and the row
table resets; on a non-popular row the diagonal chain is the first (and
only) chain that can beat the recorded best, and it sets a diagonal best
triple. -/
lemma row_step (a : List Char) (i : Nat) (hi : i < a.length) (f : Nat → Nat)
    (B : FLM) (hInv : RowInv a i f B) :
    RowInv a (i + 1)
      (innerLoop 0 a.length i f (b2j a (a.getD i ' ')) (fun _ => 0) B).1
      (innerLoop 0 a.length i f (b2j a (a.getD i ' ')) (fun _ => 0) B).2 := by
  obtain ⟨hbb, hsum, hfa, hfj, hdiag, hhist⟩ := hInv
  by_cases hp : popRow a i = true
  · have hb : b2j a (a.getD i ' ') = [] := by
      rw [b2j, if_pos (show isPopular a (a.getD i ' ') = true from hp)]
    rw [hb]
    refine ⟨hbb, ?_, ?_, ?_, ?_, ?_⟩
    · show B.besti + B.bestsize ≤ i + 1
      omega
    · intro j
      exact Nat.zero_le _
    · intro j
      exact Nat.zero_le _
    · intro t' ht'
      have : t' = i := by omega
      subst this
      exact (Drun_of_pop a t' hp).symm
    · intro j hj
      rcases Nat.lt_or_ge j i with hj' | hj'
      · exact hhist j hj'
      · have : j = i := by omega
        subst this
        rw [Drun_of_pop a j hp]
        exact Nat.zero_le _
  · have hp' : popRow a i = false := by
      rwa [Bool.not_eq_true] at hp
    have hb : b2j a (a.getD i ' ') = posns a (a.getD i ' ') := by
      rw [b2j, if_neg]
      rw [show isPopular a (a.getD i ' ') = popRow a i from rfl, hp']
      exact Bool.false_ne_true
    obtain ⟨pre, post, hsplit, hpre, hpost⟩ := posns_split a i hi
    rw [hb, hsplit]
    have hnob : ∀ j ∈ pre, j < a.length := fun j hj => lt_trans (hpre j hj).1 hi
    rw [innerLoop_append 0 a.length i f pre (i :: post) hnob]
    obtain ⟨g1, g2, g3, g4⟩ := inner_pre a i hi f hp' hfa hfj pre hpre (fun _ => 0) B
      (fun _ => Nat.zero_le _) (fun _ => Nat.zero_le _) hhist
    rw [g1]
    have hg1 : ¬(i < 0) := by omega
    have hg2 : ¬(a.length ≤ i) := by omega
    have hk : (if i = 0 then 0 else f (i - 1)) + 1 = Drun a i := by
      rcases Nat.eq_zero_or_pos i with h0 | hpos
      · subst h0
        rw [if_pos rfl, Drun_of_nonpop a 0 hp', Dm]
      · rw [if_neg (by omega), hdiag (i - 1) (by omega), Drun_of_nonpop a i hp',
          Dm_pred a i hpos]
    have hDle : Drun a i ≤ i + 1 := Drun_le a i
    simp only [innerLoop, if_neg hg1, if_neg hg2]
    by_cases hupd : B.bestsize < (if i = 0 then 0 else f (i - 1)) + 1
    · rw [if_pos hupd]
      have hb1 : ∀ j', (fun j' => if j' = i then (if i = 0 then 0 else f (i - 1)) + 1
          else (innerLoop 0 a.length i f pre (fun _ => 0) B).1 j') j' ≤ Drun a i := by
        intro j'
        by_cases hee : j' = i
        · subst hee
          simp
          omega
        · simpa [hee] using g2 j'
      have hb2 : ∀ j', (fun j' => if j' = i then (if i = 0 then 0 else f (i - 1)) + 1
          else (innerLoop 0 a.length i f pre (fun _ => 0) B).1 j') j' ≤ Drun a j' := by
        intro j'
        by_cases hee : j' = i
        · subst hee
          simp
          omega
        · simpa [hee] using g3 j'
      have hbs : Drun a i ≤ (FLM.mk (i + 1 - ((if i = 0 then 0 else f (i - 1)) + 1))
          (i + 1 - ((if i = 0 then 0 else f (i - 1)) + 1))
          ((if i = 0 then 0 else f (i - 1)) + 1)).bestsize := by
        show Drun a i ≤ (if i = 0 then 0 else f (i - 1)) + 1
        omega
      obtain ⟨p1, p2, p3, p4⟩ := inner_post a i hi f hp' hfa hfj post hpost _ _ hb1 hb2 hbs
      rw [p1]
      refine ⟨rfl, ?_, ?_, ?_, ?_, ?_⟩
      · show i + 1 - ((if i = 0 then 0 else f (i - 1)) + 1) +
          ((if i = 0 then 0 else f (i - 1)) + 1) ≤ i + 1
        omega
      · intro j
        exact p2 j
      · intro j
        exact p3 j
      · intro t' ht'
        have : t' = i := by omega
        subst this
        rw [p4 t' (le_refl t')]
        simpa using hk
      · intro j hj
        show Drun a j ≤ (if i = 0 then 0 else f (i - 1)) + 1
        rcases Nat.lt_or_ge j i with hj' | hj'
        · have := hhist j hj'
          omega
        · have : j = i := by omega
          subst this
          omega
    · rw [if_neg hupd]
      have hb1 : ∀ j', (fun j' => if j' = i then (if i = 0 then 0 else f (i - 1)) + 1
          else (innerLoop 0 a.length i f pre (fun _ => 0) B).1 j') j' ≤ Drun a i := by
        intro j'
        by_cases hee : j' = i
        · subst hee
          simp
          omega
        · simpa [hee] using g2 j'
      have hb2 : ∀ j', (fun j' => if j' = i then (if i = 0 then 0 else f (i - 1)) + 1
          else (innerLoop 0 a.length i f pre (fun _ => 0) B).1 j') j' ≤ Drun a j' := by
        intro j'
        by_cases hee : j' = i
        · subst hee
          simp
          omega
        · simpa [hee] using g3 j'
      have hbs : Drun a i ≤ B.bestsize := by
        omega
      obtain ⟨p1, p2, p3, p4⟩ := inner_post a i hi f hp' hfa hfj post hpost _ _ hb1 hb2 hbs
      rw [p1]
      refine ⟨hbb, by omega, ?_, ?_, ?_, ?_⟩
      · intro j
        exact p2 j
      · intro j
        exact p3 j
      · intro t' ht'
        have : t' = i := by omega
        subst this
        rw [p4 t' (le_refl t')]
        simpa using hk
      · intro j hj
        rcases Nat.lt_or_ge j i with hj' | hj'
        · exact hhist j hj'
        · have : j = i := by omega
          subst this
          exact hbs

/-- Running all rows of the self-comparison main loop from an invariant
state yields a diagonal best triple that fits in the window. -/
lemma rows_inv (a : List Char) :
    ∀ fuel i f B, i + fuel = a.length → RowInv a i f B →
      ((rowsLoop a a 0 a.length i fuel f B).besti =
        (rowsLoop a a 0 a.length i fuel f B).bestj ∧
       (rowsLoop a a 0 a.length i fuel f B).besti +
        (rowsLoop a a 0 a.length i fuel f B).bestsize ≤ a.length) := by
  intro fuel
  induction fuel with
  | zero =>
    intro i f B hif hInv
    obtain ⟨h1, h2, _, _, _, _⟩ := hInv
    refine ⟨h1, ?_⟩
    show B.besti + B.bestsize ≤ a.length
    omega
  | succ m ih =>
    intro i f B hif hInv
    have hi : i < a.length := by omega
    exact ih (i + 1) _ _ (by omega) (row_step a i hi f B hInv)

/-- The non-junk backward extension of a diagonal triple in the
self-comparison reaches the start of the window. -/
lemma extendBack_diag (a : List Char) : ∀ t bs,
    extendBack a a 0 0 (fun c => !isbjunk c) t t bs = ⟨0, 0, bs + t⟩ := by
  intro t
  induction t with
  | zero => intro bs; rfl
  | succ t ih =>
    intro bs
    have hcond : 0 < t + 1 ∧ 0 < t + 1 ∧
        (fun c => !isbjunk c) (a.getD (t + 1 - 1) ' ') = true ∧
        a.getD (t + 1 - 1) ' ' = a.getD (t + 1 - 1) ' ' :=
      ⟨by omega, by omega, rfl, rfl⟩
    show (if 0 < t + 1 ∧ 0 < t + 1 ∧
        (fun c => !isbjunk c) (a.getD (t + 1 - 1) ' ') = true ∧
        a.getD (t + 1 - 1) ' ' = a.getD (t + 1 - 1) ' ' then
      extendBack a a 0 0 (fun c => !isbjunk c) t (t + 1 - 1) (bs + 1)
      else ⟨t + 1, t + 1, bs⟩) = (⟨0, 0, bs + (t + 1)⟩ : FLM)
    rw [if_pos hcond]
    show extendBack a a 0 0 (fun c => !isbjunk c) t t (bs + 1) = _
    rw [ih (bs + 1)]
    congr 1
    omega

/-- The non-junk forward extension of a diagonal prefix triple in the
self-comparison reaches the end of the window. -/
lemma extendFwdGo_diag (a : List Char) : ∀ fuel s, s + fuel = a.length →
    extendFwdGo a a a.length a.length (fun c => !isbjunk c) 0 0 fuel s = a.length := by
  intro fuel
  induction fuel with
  | zero =>
    intro s hs
    show s = a.length
    omega
  | succ m ih =>
    intro s hs
    have hcond : 0 + s < a.length ∧ 0 + s < a.length ∧
        (fun c => !isbjunk c) (a.getD (0 + s) ' ') = true ∧
        a.getD (0 + s) ' ' = a.getD (0 + s) ' ' :=
      ⟨by omega, by omega, rfl, rfl⟩
    show (if 0 + s < a.length ∧ 0 + s < a.length ∧
        (fun c => !isbjunk c) (a.getD (0 + s) ' ') = true ∧
        a.getD (0 + s) ' ' = a.getD (0 + s) ' ' then
      extendFwdGo a a a.length a.length (fun c => !isbjunk c) 0 0 m (s + 1)
      else s) = a.length
    rw [if_pos hcond]
    exact ih (s + 1) (by omega)

/-- With `isjunk=None` the junk backward extension loop never fires. -/
lemma extendBack_junk (a b : List Char) (alo blo bi bj bs : Nat) :
    extendBack a b alo blo (fun c => isbjunk c) bi bj bs = ⟨bi, bj, bs⟩ := by
  cases bi with
  | zero => rfl
  | succ t =>
    show (if alo < t + 1 ∧ blo < bj ∧
        (fun c => isbjunk c) (b.getD (bj - 1) ' ') = true ∧
        a.getD (t + 1 - 1) ' ' = b.getD (bj - 1) ' ' then
      extendBack a b alo blo (fun c => isbjunk c) t (bj - 1) (bs + 1)
      else ⟨t + 1, bj, bs⟩) = (⟨t + 1, bj, bs⟩ : FLM)
    rw [if_neg]
    intro hcon
    exact absurd hcon.2.2.1 (by simp [isbjunk])

/-- With `isjunk=None` the junk forward extension loop never fires. -/
lemma extendFwdGo_junk (a b : List Char) (ahi bhi bi bj fuel bs : Nat) :
    extendFwdGo a b ahi bhi (fun c => isbjunk c) bi bj fuel bs = bs :=
  extendFwdGo_stop a b ahi bhi _ bi bj fuel bs
    (fun hcon => absurd hcon.2.2.1 (by simp [isbjunk]))

/-- The longest match of a sequence against itself over the full window is
the whole diagonal, autojunk or not: the main loop ends in a diagonal best
triple, and the non-junk extensions stretch it to the full window. -/
lemma flm_self (a : List Char) :
    find_longest_match a a 0 a.length 0 a.length = ⟨0, 0, a.length⟩ := by
  have hInv0 : RowInv a 0 (fun _ => 0) ⟨0, 0, 0⟩ := by
    refine ⟨rfl, Nat.le_refl 0, ?_, ?_, ?_, ?_⟩
    · intro j
      exact Nat.le_refl 0
    · intro j
      exact Nat.zero_le _
    · intro t ht
      exact absurd ht (by omega)
    · intro j hj
      exact absurd hj (by omega)
  obtain ⟨hdiag, hsum⟩ := rows_inv a a.length 0 (fun _ => 0) ⟨0, 0, 0⟩ (by omega) hInv0
  show (let best1 := rowsLoop a a 0 a.length 0 (a.length - 0) (fun _ => 0) ⟨0, 0, 0⟩
    let e1 := extendBack a a 0 0 (fun c => !isbjunk c) best1.besti best1.bestj best1.bestsize
    let s1 := extendFwd a a a.length a.length (fun c => !isbjunk c) e1.besti e1.bestj e1.bestsize
    let e2 := extendBack a a 0 0 (fun c => isbjunk c) e1.besti e1.bestj s1
    let s2 := extendFwd a a a.length a.length (fun c => isbjunk c) e2.besti e2.bestj e2.bestsize
    (⟨e2.besti, e2.bestj, s2⟩ : FLM)) = ⟨0, 0, a.length⟩
  rw [Nat.sub_zero]
  generalize hX : rowsLoop a a 0 a.length 0 a.length (fun _ => 0) ⟨0, 0, 0⟩ = X
  rw [hX] at hdiag hsum
  show (let e1 := extendBack a a 0 0 (fun c => !isbjunk c) X.besti X.bestj X.bestsize
    let s1 := extendFwd a a a.length a.length (fun c => !isbjunk c) e1.besti e1.bestj e1.bestsize
    let e2 := extendBack a a 0 0 (fun c => isbjunk c) e1.besti e1.bestj s1
    let s2 := extendFwd a a a.length a.length (fun c => isbjunk c) e2.besti e2.bestj e2.bestsize
    (⟨e2.besti, e2.bestj, s2⟩ : FLM)) = ⟨0, 0, a.length⟩
  rw [← hdiag]
  rw [extendBack_diag a X.besti X.bestsize]
  show (let s1 := extendFwd a a a.length a.length (fun c => !isbjunk c) 0 0 (X.bestsize + X.besti)
    let e2 := extendBack a a 0 0 (fun c => isbjunk c) 0 0 s1
    let s2 := extendFwd a a a.length a.length (fun c => isbjunk c) e2.besti e2.bestj e2.bestsize
    (⟨e2.besti, e2.bestj, s2⟩ : FLM)) = ⟨0, 0, a.length⟩
  rw [show extendFwd a a a.length a.length (fun c => !isbjunk c) 0 0 (X.bestsize + X.besti)
      = a.length from extendFwdGo_diag a _ _ (by omega)]
  show (let e2 := extendBack a a 0 0 (fun c => isbjunk c) 0 0 a.length
    let s2 := extendFwd a a a.length a.length (fun c => isbjunk c) e2.besti e2.bestj e2.bestsize
    (⟨e2.besti, e2.bestj, s2⟩ : FLM)) = ⟨0, 0, a.length⟩
  rw [extendBack_junk]
  show (⟨0, 0, extendFwd a a a.length a.length (fun c => isbjunk c) 0 0 a.length⟩ : FLM)
    = ⟨0, 0, a.length⟩
  rw [show extendFwd a a a.length a.length (fun c => isbjunk c) 0 0 a.length = a.length from
    extendFwdGo_junk a a a.length a.length 0 0 _ a.length]

/-- The matching blocks of a nonempty sequence against itself carry exactly
`a.length` matched elements. -/
lemma matchesTotal_self (a : List Char) (h : a ≠ []) :
    matchesTotal a a = a.length := by
  have hn : a.length ≠ 0 := fun hh => h (List.eq_nil_of_length_eq_zero hh)
  have hq : queueMeasure [(0, a.length, 0, a.length)] = a.length + a.length + 1 := by
    simp [queueMeasure, winMeasure]
  have hgo : matchingBlocksGo a a (a.length + a.length + 1)
      [(0, a.length, 0, a.length)] [] = [⟨0, 0, a.length⟩] := by
    simp [matchingBlocksGo, flm_self a, hn]
  simp only [matchesTotal, get_matching_blocks]
  rw [hq, hgo]
  simp [sortBlocks, insertSorted, collapseGo, hn]

/-- `ratio(a, a) = 1` for every nonempty `a` — also when autojunk purges
popular elements. -/
lemma ratio_self (a : List Char) (h : a ≠ []) : ratio a a = 1 := by
  have hn : a.length ≠ 0 := fun hh => h (List.eq_nil_of_length_eq_zero hh)
  rw [ratio, matchesTotal_self a h, if_pos (show a.length + a.length ≠ 0 from by omega)]
  have hq : (a.length : ℚ) ≠ 0 := Nat.cast_ne_zero.mpr hn
  field_simp
  ring

/-- Claim C4: the lexical ratio takes the stated edge values —
`ratio(a, a) = 1.0` for every non-empty `a`, `ratio("", "") = 1.0`, and
`ratio("", x) = 0.0` for every non-empty `x`. -/
theorem c4_ratio_edge_values :
    (∀ a : List Char, a ≠ [] → ratio a a = 1) ∧
    ratio ([] : List Char) [] = 1 ∧
    (∀ x : List Char, x ≠ [] → ratio [] x = 0) :=
  ⟨ratio_self, ratio_nil_nil, ratio_nil_left⟩

/-- Witness for claim C4 at concrete inputs. -/
theorem c4_ratio_edge_values_witness :
    ((['q'] : List Char) ≠ [] ∧ ratio ['q'] ['q'] = 1) ∧ ratio [] ['q'] = 0 :=
  ⟨⟨by simp, c4_ratio_edge_values.1 ['q'] (by simp)⟩,
    c4_ratio_edge_values.2.2 ['q'] (by simp)⟩

/-! ## Fuel adequacy of the queue loop

The fuel `get_matching_blocks` hands to `matchingBlocksGo` is provably
sufficient: each iteration of the `while queue` loop strictly decreases
`queueMeasure`, so `matchingBlocksGo` computes the same list for every fuel
at least `queueMeasure` of the queue (`matchingBlocksGo_fuel`) — the fuel
parameter is a termination bookkeeping device, not a semantic choice.
The key fact is that `find_longest_match` returns a match inside its
window (`flm_bounds`). -/

lemma innerLoop_bounds (blo bhi i alo : Nat) (hi : alo ≤ i) (fOld : Nat → Nat)
    (hfa : ∀ j, fOld j ≤ i - alo)
    (hfb : ∀ j, fOld j ≤ j + 1 - blo) :
    ∀ js fNew B,
      (∀ j, fNew j ≤ i + 1 - alo) →
      (∀ j, fNew j ≤ j + 1 - blo) →
      alo ≤ B.besti → B.besti + B.bestsize ≤ i + 1 →
      blo ≤ B.bestj → B.bestj + B.bestsize ≤ bhi →
      (alo ≤ (innerLoop blo bhi i fOld js fNew B).2.besti ∧
       (innerLoop blo bhi i fOld js fNew B).2.besti +
         (innerLoop blo bhi i fOld js fNew B).2.bestsize ≤ i + 1 ∧
       blo ≤ (innerLoop blo bhi i fOld js fNew B).2.bestj ∧
       (innerLoop blo bhi i fOld js fNew B).2.bestj +
         (innerLoop blo bhi i fOld js fNew B).2.bestsize ≤ bhi) ∧
      (∀ j, (innerLoop blo bhi i fOld js fNew B).1 j ≤ i + 1 - alo) ∧
      (∀ j, (innerLoop blo bhi i fOld js fNew B).1 j ≤ j + 1 - blo) := by
  intro js
  induction js with
  | nil =>
    intro fNew B h1 h2 h3 h4 h5 h6
    exact ⟨⟨h3, h4, h5, h6⟩, h1, h2⟩
  | cons j t ih =>
    intro fNew B h1 h2 h3 h4 h5 h6
    by_cases hg1 : j < blo
    · simp only [innerLoop, if_pos hg1]
      exact ih fNew B h1 h2 h3 h4 h5 h6
    · by_cases hg2 : bhi ≤ j
      · simp only [innerLoop, if_neg hg1, if_pos hg2]
        exact ⟨⟨h3, h4, h5, h6⟩, h1, h2⟩
      · have hjb : blo ≤ j := le_of_not_lt hg1
        have hjh : j < bhi := lt_of_not_ge hg2
        have hka : (if j = 0 then 0 else fOld (j - 1)) + 1 ≤ i + 1 - alo := by
          rcases Nat.eq_zero_or_pos j with hj0 | hjpos
          · subst hj0
            rw [if_pos rfl]
            omega
          · rw [if_neg (by omega)]
            have := hfa (j - 1)
            omega
        have hkb : (if j = 0 then 0 else fOld (j - 1)) + 1 ≤ j + 1 - blo := by
          rcases Nat.eq_zero_or_pos j with hj0 | hjpos
          · subst hj0
            rw [if_pos rfl]
            omega
          · rw [if_neg (by omega)]
            have := hfb (j - 1)
            omega
        simp only [innerLoop, if_neg hg1, if_neg hg2]
        have hb1 : ∀ j', (fun j' => if j' = j then (if j = 0 then 0 else fOld (j - 1)) + 1
            else fNew j') j' ≤ i + 1 - alo := by
          intro j'
          by_cases hee : j' = j
          · subst hee
            simpa using hka
          · simpa [hee] using h1 j'
        have hb2 : ∀ j', (fun j' => if j' = j then (if j = 0 then 0 else fOld (j - 1)) + 1
            else fNew j') j' ≤ j' + 1 - blo := by
          intro j'
          by_cases hee : j' = j
          · subst hee
            simpa using hkb
          · simpa [hee] using h2 j'
        by_cases hupd : B.bestsize < (if j = 0 then 0 else fOld (j - 1)) + 1
        · rw [if_pos hupd]
          refine ih _ _ hb1 hb2 ?_ ?_ ?_ ?_
          · show alo ≤ i + 1 - ((if j = 0 then 0 else fOld (j - 1)) + 1)
            omega
          · show i + 1 - ((if j = 0 then 0 else fOld (j - 1)) + 1) +
              ((if j = 0 then 0 else fOld (j - 1)) + 1) ≤ i + 1
            omega
          · show blo ≤ j + 1 - ((if j = 0 then 0 else fOld (j - 1)) + 1)
            omega
          · show j + 1 - ((if j = 0 then 0 else fOld (j - 1)) + 1) +
              ((if j = 0 then 0 else fOld (j - 1)) + 1) ≤ bhi
            omega
        · rw [if_neg hupd]
          exact ih _ _ hb1 hb2 h3 h4 h5 h6

lemma rowsLoop_bounds (a b : List Char) (alo blo bhi : Nat) :
    ∀ fuel i f B, alo ≤ i →
      (∀ j, f j ≤ i - alo) → (∀ j, f j ≤ j + 1 - blo) →
      alo ≤ B.besti → B.besti + B.bestsize ≤ i →
      blo ≤ B.bestj → B.bestj + B.bestsize ≤ bhi →
      (alo ≤ (rowsLoop a b blo bhi i fuel f B).besti ∧
       (rowsLoop a b blo bhi i fuel f B).besti +
         (rowsLoop a b blo bhi i fuel f B).bestsize ≤ i + fuel ∧
       blo ≤ (rowsLoop a b blo bhi i fuel f B).bestj ∧
       (rowsLoop a b blo bhi i fuel f B).bestj +
         (rowsLoop a b blo bhi i fuel f B).bestsize ≤ bhi) := by
  intro fuel
  induction fuel with
  | zero =>
    intro i f B hi hfa hfb h3 h4 h5 h6
    refine ⟨h3, ?_, h5, h6⟩
    show B.besti + B.bestsize ≤ i + 0
    omega
  | succ m ih =>
    intro i f B hi hfa hfb h3 h4 h5 h6
    obtain ⟨⟨g3, g4, g5, g6⟩, gf1, gf2⟩ :=
      innerLoop_bounds blo bhi i alo hi f hfa hfb (b2j b (a.getD i ' '))
        (fun _ => 0) B (fun _ => Nat.zero_le _) (fun _ => Nat.zero_le _)
        h3 (by omega) h5 h6
    have hres := ih (i + 1) _ _ (by omega)
      (by intro j; simpa using gf1 j) gf2 g3 g4 g5 g6
    have hg : i + 1 + m = i + (m + 1) := by omega
    rw [hg] at hres
    exact hres

lemma extendBack_bounds (a b : List Char) (alo blo : Nat) (p : Char → Bool)
    (ahi bhi : Nat) :
    ∀ bi bj bs, alo ≤ bi → bi + bs ≤ ahi → blo ≤ bj → bj + bs ≤ bhi →
      (alo ≤ (extendBack a b alo blo p bi bj bs).besti ∧
       (extendBack a b alo blo p bi bj bs).besti +
         (extendBack a b alo blo p bi bj bs).bestsize ≤ ahi ∧
       blo ≤ (extendBack a b alo blo p bi bj bs).bestj ∧
       (extendBack a b alo blo p bi bj bs).bestj +
         (extendBack a b alo blo p bi bj bs).bestsize ≤ bhi) := by
  intro bi
  induction bi with
  | zero =>
    intro bj bs h1 h2 h3 h4
    exact ⟨h1, h2, h3, h4⟩
  | succ t ih =>
    intro bj bs h1 h2 h3 h4
    simp only [extendBack]
    by_cases hcond : alo < t + 1 ∧ blo < bj ∧
        p (b.getD (bj - 1) ' ') = true ∧
        a.getD (t + 1 - 1) ' ' = b.getD (bj - 1) ' '
    · rw [if_pos hcond]
      have ha1 : alo ≤ t := by omega
      have ha2 : t + (bs + 1) ≤ ahi := by omega
      have ha3 : blo ≤ bj - 1 := by omega
      have ha4 : bj - 1 + (bs + 1) ≤ bhi := by omega
      exact ih (bj - 1) (bs + 1) ha1 ha2 ha3 ha4
    · rw [if_neg hcond]
      exact ⟨h1, h2, h3, h4⟩

lemma extendFwdGo_bounds (a b : List Char) (ahi bhi : Nat) (p : Char → Bool)
    (bi bj : Nat) :
    ∀ fuel bs, bi + bs ≤ ahi → bj + bs ≤ bhi →
      bi + extendFwdGo a b ahi bhi p bi bj fuel bs ≤ ahi ∧
      bj + extendFwdGo a b ahi bhi p bi bj fuel bs ≤ bhi := by
  intro fuel
  induction fuel with
  | zero =>
    intro bs h1 h2
    exact ⟨h1, h2⟩
  | succ m ih =>
    intro bs h1 h2
    simp only [extendFwdGo]
    by_cases hcond : bi + bs < ahi ∧ bj + bs < bhi ∧
        p (b.getD (bj + bs) ' ') = true ∧
        a.getD (bi + bs) ' ' = b.getD (bj + bs) ' '
    · rw [if_pos hcond]
      exact ih (bs + 1) (by omega) (by omega)
    · rw [if_neg hcond]
      exact ⟨h1, h2⟩

/-- `find_longest_match` returns a match located inside its window, as the
difflib docstring states: `alo <= i <= i+k <= ahi` and
`blo <= j <= j+k <= bhi`. -/
lemma flm_bounds (a b : List Char) (alo ahi blo bhi : Nat)
    (ha : alo ≤ ahi) (hb : blo ≤ bhi) :
    alo ≤ (find_longest_match a b alo ahi blo bhi).besti ∧
    (find_longest_match a b alo ahi blo bhi).besti +
      (find_longest_match a b alo ahi blo bhi).bestsize ≤ ahi ∧
    blo ≤ (find_longest_match a b alo ahi blo bhi).bestj ∧
    (find_longest_match a b alo ahi blo bhi).bestj +
      (find_longest_match a b alo ahi blo bhi).bestsize ≤ bhi := by
  obtain ⟨g1, g2, g3, g4⟩ := rowsLoop_bounds a b alo blo bhi (ahi - alo) alo
    (fun _ => 0) ⟨alo, blo, 0⟩ (le_refl alo) (fun _ => Nat.zero_le _)
    (fun _ => Nat.zero_le _) (le_refl alo)
    (show alo + 0 ≤ alo from by omega) (le_refl blo)
    (show blo + 0 ≤ bhi from by omega)
  have hsum : alo + (ahi - alo) = ahi := by omega
  rw [hsum] at g2
  generalize hX : rowsLoop a b blo bhi alo (ahi - alo) (fun _ => 0) ⟨alo, blo, 0⟩ = X at g1 g2 g3 g4
  obtain ⟨e1, e2', e3, e4⟩ := extendBack_bounds a b alo blo (fun c => !isbjunk c)
    ahi bhi X.besti X.bestj X.bestsize g1 g2 g3 g4
  generalize hE : extendBack a b alo blo (fun c => !isbjunk c) X.besti X.bestj X.bestsize = E
    at e1 e2' e3 e4
  obtain ⟨f1, f2⟩ := extendFwdGo_bounds a b ahi bhi (fun c => !isbjunk c)
    E.besti E.bestj (ahi - (E.besti + E.bestsize)) E.bestsize e2' e4
  have hm : find_longest_match a b alo ahi blo bhi =
      ⟨E.besti, E.bestj,
        extendFwd a b ahi bhi (fun c => !isbjunk c) E.besti E.bestj E.bestsize⟩ := by
    show (let best1 := rowsLoop a b blo bhi alo (ahi - alo) (fun _ => 0) ⟨alo, blo, 0⟩
      let e1 := extendBack a b alo blo (fun c => !isbjunk c) best1.besti best1.bestj best1.bestsize
      let s1 := extendFwd a b ahi bhi (fun c => !isbjunk c) e1.besti e1.bestj e1.bestsize
      let e2 := extendBack a b alo blo (fun c => isbjunk c) e1.besti e1.bestj s1
      let s2 := extendFwd a b ahi bhi (fun c => isbjunk c) e2.besti e2.bestj e2.bestsize
      (⟨e2.besti, e2.bestj, s2⟩ : FLM)) = _
    rw [hX]
    show (let e1 := extendBack a b alo blo (fun c => !isbjunk c) X.besti X.bestj X.bestsize
      let s1 := extendFwd a b ahi bhi (fun c => !isbjunk c) e1.besti e1.bestj e1.bestsize
      let e2 := extendBack a b alo blo (fun c => isbjunk c) e1.besti e1.bestj s1
      let s2 := extendFwd a b ahi bhi (fun c => isbjunk c) e2.besti e2.bestj e2.bestsize
      (⟨e2.besti, e2.bestj, s2⟩ : FLM)) = _
    rw [hE]
    show (let s1 := extendFwd a b ahi bhi (fun c => !isbjunk c) E.besti E.bestj E.bestsize
      let e2 := extendBack a b alo blo (fun c => isbjunk c) E.besti E.bestj s1
      let s2 := extendFwd a b ahi bhi (fun c => isbjunk c) e2.besti e2.bestj e2.bestsize
      (⟨e2.besti, e2.bestj, s2⟩ : FLM)) = _
    show (let e2 := extendBack a b alo blo (fun c => isbjunk c) E.besti E.bestj (extendFwd a b ahi bhi (fun c => !isbjunk c) E.besti E.bestj E.bestsize)
      let s2 := extendFwd a b ahi bhi (fun c => isbjunk c) e2.besti e2.bestj e2.bestsize
      (⟨e2.besti, e2.bestj, s2⟩ : FLM)) = _
    rw [extendBack_junk]
    show (⟨E.besti, E.bestj, extendFwd a b ahi bhi (fun c => isbjunk c) E.besti E.bestj
        (extendFwd a b ahi bhi (fun c => !isbjunk c) E.besti E.bestj E.bestsize)⟩ : FLM) = _
    rw [show extendFwd a b ahi bhi (fun c => isbjunk c) E.besti E.bestj
        (extendFwd a b ahi bhi (fun c => !isbjunk c) E.besti E.bestj E.bestsize) =
        extendFwd a b ahi bhi (fun c => !isbjunk c) E.besti E.bestj E.bestsize from
      extendFwdGo_junk a b ahi bhi E.besti E.bestj _ _]
  rw [hm]
  exact ⟨e1, f1, e3, f2⟩

lemma queueMeasure_append (l1 l2 : List (Nat × Nat × Nat × Nat)) :
    queueMeasure (l1 ++ l2) = queueMeasure l1 + queueMeasure l2 := by
  simp [queueMeasure]

/-- One iteration of the `while queue` loop strictly decreases the queue
measure: the two pushed sub-windows are separated by a nonempty match. -/
lemma queueMeasure_push_lt (a b : List Char) (alo ahi blo bhi : Nat)
    (rest : List (Nat × Nat × Nat × Nat))
    (hbs : (find_longest_match a b alo ahi blo bhi).bestsize ≠ 0) :
    queueMeasure
      ((if (find_longest_match a b alo ahi blo bhi).besti +
            (find_longest_match a b alo ahi blo bhi).bestsize < ahi ∧
          (find_longest_match a b alo ahi blo bhi).bestj +
            (find_longest_match a b alo ahi blo bhi).bestsize < bhi then
          [((find_longest_match a b alo ahi blo bhi).besti +
              (find_longest_match a b alo ahi blo bhi).bestsize, ahi,
            (find_longest_match a b alo ahi blo bhi).bestj +
              (find_longest_match a b alo ahi blo bhi).bestsize, bhi)] else []) ++
       (if alo < (find_longest_match a b alo ahi blo bhi).besti ∧
          blo < (find_longest_match a b alo ahi blo bhi).bestj then
          [(alo, (find_longest_match a b alo ahi blo bhi).besti, blo,
            (find_longest_match a b alo ahi blo bhi).bestj)] else []) ++
       rest) <
    queueMeasure ((alo, ahi, blo, bhi) :: rest) := by
  have hao : alo < ahi := by
    by_contra hc
    exact hbs (by rw [flm_of_dega a b alo ahi blo bhi (by omega)])
  have hbo : blo < bhi := by
    by_contra hc
    exact hbs (by rw [flm_of_degb a b alo ahi blo bhi (by omega)])
  obtain ⟨h1, h2, h3, h4⟩ := flm_bounds a b alo ahi blo bhi (le_of_lt hao) (le_of_lt hbo)
  have hpos : 0 < (find_longest_match a b alo ahi blo bhi).bestsize := by omega
  rw [queueMeasure_append, queueMeasure_append]
  have hw : queueMeasure ((alo, ahi, blo, bhi) :: rest) =
      ((ahi - alo) + (bhi - blo) + 1) + queueMeasure rest := by
    simp [queueMeasure, winMeasure]
  rw [hw]
  by_cases hcr : (find_longest_match a b alo ahi blo bhi).besti +
      (find_longest_match a b alo ahi blo bhi).bestsize < ahi ∧
      (find_longest_match a b alo ahi blo bhi).bestj +
        (find_longest_match a b alo ahi blo bhi).bestsize < bhi
  · rw [if_pos hcr]
    by_cases hcl : alo < (find_longest_match a b alo ahi blo bhi).besti ∧
        blo < (find_longest_match a b alo ahi blo bhi).bestj
    · rw [if_pos hcl]
      simp only [queueMeasure, winMeasure, List.map_cons, List.map_nil, List.sum_cons,
        List.sum_nil]
      omega
    · rw [if_neg hcl]
      simp only [queueMeasure, winMeasure, List.map_cons, List.map_nil, List.sum_cons,
        List.sum_nil]
      omega
  · rw [if_neg hcr]
    by_cases hcl : alo < (find_longest_match a b alo ahi blo bhi).besti ∧
        blo < (find_longest_match a b alo ahi blo bhi).bestj
    · rw [if_pos hcl]
      simp only [queueMeasure, winMeasure, List.map_cons, List.map_nil, List.sum_cons,
        List.sum_nil]
      omega
    · rw [if_neg hcl]
      simp only [queueMeasure, winMeasure, List.map_cons, List.map_nil, List.sum_cons,
        List.sum_nil]
      omega

/-- `matchingBlocksGo` is independent of the fuel once the fuel is at least
the queue measure: the supplied fuel is provably sufficient. -/
lemma matchingBlocksGo_fuel (a b : List Char) :
    ∀ n q acc f1 f2, queueMeasure q ≤ n → queueMeasure q ≤ f1 → queueMeasure q ≤ f2 →
      matchingBlocksGo a b f1 q acc = matchingBlocksGo a b f2 q acc := by
  intro n
  induction n with
  | zero =>
    intro q acc f1 f2 hn h1 h2
    cases q with
    | nil => cases f1 <;> cases f2 <;> rfl
    | cons w rest =>
      exfalso
      have : 1 ≤ queueMeasure (w :: rest) := by
        obtain ⟨alo, ahi, blo, bhi⟩ := w
        simp [queueMeasure, winMeasure]
        omega
      omega
  | succ m ih =>
    intro q acc f1 f2 hn h1 h2
    cases q with
    | nil => cases f1 <;> cases f2 <;> rfl
    | cons w rest =>
      obtain ⟨alo, ahi, blo, bhi⟩ := w
      have hwpos : 1 ≤ queueMeasure ((alo, ahi, blo, bhi) :: rest) := by
        simp [queueMeasure, winMeasure]
        omega
      have hrest : queueMeasure rest + ((ahi - alo) + (bhi - blo) + 1) =
          queueMeasure ((alo, ahi, blo, bhi) :: rest) := by
        simp [queueMeasure, winMeasure]
        omega
      rcases Nat.exists_eq_succ_of_ne_zero (show f1 ≠ 0 from by omega) with ⟨g1, rfl⟩
      rcases Nat.exists_eq_succ_of_ne_zero (show f2 ≠ 0 from by omega) with ⟨g2, rfl⟩
      show (let m := find_longest_match a b alo ahi blo bhi
        if m.bestsize = 0 then matchingBlocksGo a b g1 rest acc else _) = _
      by_cases hbs : (find_longest_match a b alo ahi blo bhi).bestsize = 0
      · rw [if_pos hbs]
        show matchingBlocksGo a b g1 rest acc =
          (let m := find_longest_match a b alo ahi blo bhi
            if m.bestsize = 0 then matchingBlocksGo a b g2 rest acc else _)
        rw [if_pos hbs]
        exact ih rest acc g1 g2 (by omega) (by omega) (by omega)
      · rw [if_neg hbs]
        show matchingBlocksGo a b g1 _ _ =
          (let m := find_longest_match a b alo ahi blo bhi
            if m.bestsize = 0 then matchingBlocksGo a b g2 rest acc else _)
        rw [if_neg hbs]
        have hlt := queueMeasure_push_lt a b alo ahi blo bhi rest hbs
        exact ih _ _ g1 g2 (by omega) (by omega) (by omega)

end DrawingComparator
